import Mathlib

/-
  Verification of the format-conversion subsystem of the `architect` CLI
  (Go sources under internal/importers, internal/commands, internal/models).

  The Go code is shallowly embedded: dynamic `interface\x7b\x7d` values produced by
  `encoding/json` / `yaml` decoding are modelled by the inductive type `GoVal`,
  Go maps (`map[string]T`) by association lists with update-or-append insertion
  and first-match lookup (one fixed iteration order of the unordered Go map),
  and `nil` maps / pointers by `Option`.
-/

namespace Architect

/--
Dynamic Go values (`interface\x7b\x7d`).  `encoding/json.Unmarshal` into
`interface\x7b\x7d` only ever produces `vnull`, `vbool`, `vnum` (every JSON number
becomes a `float64`), `vstr`, `varr` and `vobj`; the `vint` constructor models a
native Go `int`/`int64` value, which JSON decoding never produces.  The numeric
payload is kept as an exact rational, which is enough for the code under study:
none of the embedded functions inspects the numeric value.
-/
inductive GoVal where
  | vnull : GoVal
  | vbool (b : Bool) : GoVal
  | vnum (q : Rat) : GoVal
  | vint (n : Int) : GoVal
  | vstr (s : String) : GoVal
  | varr (xs : List GoVal) : GoVal
  | vobj (fs : List (String × GoVal)) : GoVal

/-- First-match lookup in an association list: Go map read `m[k]`. -/
def lookupGo {α : Type} (m : List (String × α)) (k : String) : Option α :=
  match m with
  | [] => none
  | (k', v) :: rest => if k' = k then some v else lookupGo rest k

/-- Update-or-append insertion: Go map write `m[k] = v`. -/
def insertGo {α : Type} (m : List (String × α)) (k : String) (v : α) :
    List (String × α) :=
  match m with
  | [] => [(k, v)]
  | (k', v') :: rest =>
      if k' = k then (k, v) :: rest else (k', v') :: insertGo rest k v

/-- `pre` is a prefix of `l` (char-list form of Go `strings.HasPrefix`). -/
def isPrefixL (pre l : List Char) : Bool :=
  match pre, l with
  | [], _ => true
  | _ :: _, [] => false
  | p :: ps, c :: cs => p = c && isPrefixL ps cs

/-- Substring test on char lists. -/
def containsL (hay needle : List Char) : Bool :=
  match hay with
  | [] => needle.isEmpty
  | _ :: rest => isPrefixL needle hay || containsL rest needle

/-- Go `strings.Contains hay needle`. -/
def strContains (hay needle : String) : Bool :=
  containsL hay.data needle.data

/-- Go `strings.HasPrefix s pre`. -/
def goHasPrefix (s pre : String) : Bool :=
  isPrefixL pre.data s.data

/-- Go `strings.ToLower` (ASCII letters; the code only meets ASCII data). -/
def goToLower (s : String) : String :=
  ⟨s.data.map Char.toLower⟩

/-- Go `strings.ToUpper` (ASCII letters; the code only meets ASCII data). -/
def goToUpper (s : String) : String :=
  ⟨s.data.map Char.toUpper⟩

/-- Full split of a char list on a separator (Go `strings.Split`). -/
def splitOnCharL (sep : Char) : List Char → List (List Char)
  | [] => [[]]
  | c :: cs =>
      match splitOnCharL sep cs with
      | [] => [[]]
      | g :: gs => if c = sep then [] :: g :: gs else (c :: g) :: gs

/-- Go `strings.Split s sep` for a one-character separator. -/
def goSplit (s : String) (sep : Char) : List String :=
  (splitOnCharL sep s.data).map List.asString

/-- Go `strings.TrimSpace`. -/
def goTrimSpace (s : String) : String :=
  ⟨((s.data.dropWhile Char.isWhitespace).reverse.dropWhile Char.isWhitespace).reverse⟩

/-- Go `strings.Trim s "/"`: strip leading and trailing slashes. -/
def goTrimSlash (s : String) : String :=
  ⟨((s.data.dropWhile (· = '/')).reverse.dropWhile (· = '/')).reverse⟩

/-- Split off everything before the first occurrence of `sep`. -/
def splitFirstL (sep : Char) : List Char → Option (List Char × List Char)
  | [] => none
  | c :: cs =>
      if c = sep then some ([], cs)
      else (splitFirstL sep cs).map fun p => (c :: p.1, p.2)

/-- Go `strings.SplitN s sep n` (n > 0) for a one-character separator. -/
def goSplitN (sep : Char) : Nat → List Char → List (List Char)
  | 0, _ => []
  | 1, l => [l]
  | Nat.succ (Nat.succ n), l =>
      match splitFirstL sep l with
      | none => [l]
      | some (a, b) => a :: goSplitN sep (Nat.succ n) b

/-- Go `strings.Join parts "/"` (used via `strings.Join(commonSegments, "/")`). -/
def joinSlash : List String → String
  | [] => ""
  | [x] => x
  | x :: y :: rest => x ++ "/" ++ joinSlash (y :: rest)

/-- Go `strings.HasPrefix s pre` (named `goStartsWith` here). -/
def goStartsWith (s pre : String) : Bool :=
  isPrefixL pre.data s.data

/-! ## The canonical API model (internal/models/api.go)

Field maps (`map[string]interface\x7b\x7d` in Go) are association lists from field
name to a dynamic descriptor value; a `nil` Go map is `Option.none` where the
code distinguishes `nil` from empty (the `Body != nil` checks in export.go). -/

/-- `models.EndpointRequest`. -/
structure EndpointRequest where
  params : List (String × GoVal)
  query : List (String × GoVal)
  body : Option (List (String × GoVal))

/-- `models.EndpointResponse`. -/
structure EndpointResponse where
  status : Int
  body : Option (List (String × GoVal))

/-- `models.ErrorResponse`. -/
structure ErrorResponse where
  status : Int
  code : String
  message : String

/-- `models.Endpoint`. -/
structure Endpoint where
  path : String
  method : String
  description : String
  auth : Bool
  request : Option EndpointRequest
  response : Option EndpointResponse
  errors : List ErrorResponse

/-- `models.API`. -/
structure API where
  baseURL : String
  authType : String
  endpoints : List Endpoint

/-! ## OpenAPI document shape (internal/importers/openapi.go)

The decoded form of the simplified OpenAPI 3.0 document the importer reads and
the exporter writes.  `paths` and `responses`/`content` are Go maps, modelled
as association lists; schemas are dynamic JSON values (`GoVal`). -/

/-- `importers.OpenAPIMediaType`. -/
structure OAMediaType where
  schema : Option GoVal

/-- `importers.OpenAPIRequestBody` (the `description` field is never read). -/
structure OARequestBody where
  content : List (String × OAMediaType)
  required : Bool

/-- `importers.OpenAPIResponse`. -/
structure OAResponse where
  description : String
  content : List (String × OAMediaType)

/-- `importers.OpenAPIParameter` (`paramIn` is the Go field `In`). -/
structure OAParameter where
  name : String
  paramIn : String
  required : Bool
  schema : Option GoVal

/-- `importers.OpenAPIOperation` (tags are never read and are omitted). -/
structure OAOperation where
  summary : String
  description : String
  parameters : List OAParameter
  requestBody : Option OARequestBody
  responses : List (String × OAResponse)
  security : List (List (String × List String))

/-- `importers.OpenAPIServer` (its description field is never read). -/
structure OAServer where
  url : String

/-- `importers.OpenAPI`: the document subset read by the importer (the `info`
field is never read by the conversion and is omitted). -/
structure OpenAPIDoc where
  servers : List OAServer
  paths : List (String × List (String × OAOperation))

namespace OpenAPIImporter

/-- `OpenAPIImporter.convertSchemaType` (openapi.go:248-288).  When the schema
has a string-valued "type" key the switch on it returns directly; the "format"
key is consulted only when that switch was not entered. -/
def convertSchemaType (schema : Option GoVal) : String :=
  match schema with
  | some (GoVal.vobj schemaMap) =>
      match lookupGo schemaMap "type" with
      | some (GoVal.vstr typeStr) =>
          if typeStr = "integer" ∨ typeStr = "number" then "integer"
          else if typeStr = "boolean" then "boolean"
          else if typeStr = "array" then "array"
          else if typeStr = "object" then "object"
          else "string"
      | _ =>
          match lookupGo schemaMap "format" with
          | some (GoVal.vstr formatStr) =>
              if formatStr = "uuid" then "uuid"
              else if formatStr = "date-time" then "datetime"
              else if formatStr = "email" then "string"
              else "string"
          | _ => "string"
  | _ => "string"

/-- `OpenAPIImporter.parseSchemaProperties` (openapi.go:314-347): reads the
"required" string array, then converts every property via `convertSchemaType`
and appends ", required" or ", optional". -/
def parseSchemaProperties (schema : Option GoVal) : List (String × String) :=
  match schema with
  | some (GoVal.vobj schemaMap) =>
      match lookupGo schemaMap "properties" with
      | some (GoVal.vobj propMap) =>
          let requiredFields : List String :=
            match lookupGo schemaMap "required" with
            | some (GoVal.varr reqArray) =>
                reqArray.filterMap fun v =>
                  match v with
                  | GoVal.vstr s => some s
                  | _ => none
            | _ => []
          propMap.foldl (fun fields prop =>
            let fieldType := convertSchemaType (some prop.2)
            let fieldType :=
              if requiredFields.contains prop.1 then fieldType ++ ", required"
              else fieldType ++ ", optional"
            insertGo fields prop.1 fieldType) []
      | _ => []
  | _ => []

/-- `OpenAPIImporter.extractSchemaFields` (openapi.go:291-311): prefer a media
type whose key contains "json"; if the fields came out empty and any content
exists, fall back to the first available media type. -/
def extractSchemaFields (content : List (String × OAMediaType)) :
    List (String × String) :=
  let fields :=
    match content.find? (fun p => strContains p.1 "json") with
    | some p => parseSchemaProperties p.2.schema
    | none => []
  if fields.isEmpty && !content.isEmpty then
    match content with
    | [] => []
    | p :: _ => parseSchemaProperties p.2.schema
  else fields

/-- `OpenAPIImporter.parseStatusCode` (openapi.go:350-371). -/
def parseStatusCode (statusCode : String) : Int :=
  if statusCode = "200" then 200
  else if statusCode = "201" then 201
  else if statusCode = "204" then 204
  else if statusCode = "400" then 400
  else if statusCode = "401" then 401
  else if statusCode = "403" then 403
  else if statusCode = "404" then 404
  else if statusCode = "500" then 500
  else 200

/-- `OpenAPIImporter.convertOperation` (openapi.go:183-245). -/
def convertOperation (path method : String) (operation : OAOperation) : Endpoint :=
  let description :=
    if operation.summary = "" then operation.description else operation.summary
  let request : Option EndpointRequest :=
    if operation.requestBody.isSome || !operation.parameters.isEmpty then
      let pq := operation.parameters.foldl
        (fun (pq : List (String × GoVal) × List (String × GoVal)) param =>
          let paramType := convertSchemaType param.schema ++
            (if param.required then ", required" else ", optional")
          if param.paramIn = "path" then
            (insertGo pq.1 param.name (GoVal.vstr paramType), pq.2)
          else if param.paramIn = "query" then
            (pq.1, insertGo pq.2 param.name (GoVal.vstr paramType))
          else pq) ([], [])
      let body : List (String × GoVal) :=
        match operation.requestBody with
        | some rb =>
            (extractSchemaFields rb.content).foldl
              (fun acc p => insertGo acc p.1 (GoVal.vstr p.2)) []
        | none => []
      some { params := pq.1, query := pq.2, body := some body }
    else none
  let response : Option EndpointResponse :=
    match operation.responses.find? (fun p => goStartsWith p.1 "2") with
    | some p =>
        some { status := parseStatusCode p.1,
               body := some ((extractSchemaFields p.2.content).map
                 fun q => (q.1, GoVal.vstr q.2)) }
    | none => none
  { path := path, method := method, description := description,
    auth := !operation.security.isEmpty, request := request,
    response := response, errors := [] }

/-- `OpenAPIImporter.extractBaseURL` (openapi.go:143-167). -/
def extractBaseURL (servers : List OAServer) : String :=
  match servers with
  | [] => "/api/v1"
  | s :: _ =>
      let url := s.url
      if goStartsWith url "http://" || goStartsWith url "https://" then
        let parts := goSplitN '/' 4 url.data
        if parts.length ≥ 4 then "/" ++ List.asString ((parts.get? 3).getD [])
        else "/api/v1"
      else if !goStartsWith url "/" then "/" ++ url
      else url

/-- `OpenAPIImporter.determineAuthType` (openapi.go:170-180): any operation
with a non-empty security array makes the whole API "bearer". -/
def determineAuthType (doc : OpenAPIDoc) : String :=
  if doc.paths.any (fun pathItem => pathItem.2.any fun op => !op.2.security.isEmpty)
  then "bearer" else "none"

/-- `OpenAPIImporter.Import` (openapi.go:72-112) after the JSON/YAML parse:
the conversion of a decoded OpenAPI document into the canonical API model. -/
def importDoc (doc : OpenAPIDoc) : API :=
  { baseURL := extractBaseURL doc.servers,
    authType := determineAuthType doc,
    endpoints := doc.paths.flatMap fun pathItem =>
      pathItem.2.map fun mo => convertOperation pathItem.1 (goToUpper mo.1) mo.2 }

end OpenAPIImporter

/-! ## Exporters (internal/commands/export.go)

`exportOpenAPI` builds a dynamic document, renders it with
`json.MarshalIndent` and returns the string; `Import` parses that JSON back.
On the fragment produced here, marshalling followed by unmarshalling is the
identity (absent keys decode to Go zero values: empty summary-less fields,
`parameters = nil`), so the Import-after-Export composition is modelled as
`OpenAPIImporter.importDoc ∘ exportOpenAPI` over the shared document shape. -/

/-- `mapType` (export.go:210-225): canonical type tag → OpenAPI schema type. -/
def mapType (t : String) : String :=
  if t = "uuid" ∨ t = "datetime" then "string"
  else if t = "integer" ∨ t = "number" then "number"
  else if t = "boolean" then "boolean"
  else if t = "array" then "array"
  else if t = "object" then "object"
  else "string"

/-- The loop body of `buildSchema` (export.go:182-201): a descriptor that is
not a string is skipped (`continue`); a string descriptor is split on "," —
the trimmed head is the type tag, and the field is listed as required once per
trimmed tail part equal to "required". -/
def buildSchemaStep (pr : List (String × GoVal) × List String)
    (fd : String × GoVal) : List (String × GoVal) × List String :=
  match fd.2 with
  | GoVal.vstr defStr =>
      let parts := goSplit defStr ','
      let fieldType := goTrimSpace (parts.headD "")
      let props :=
        insertGo pr.1 fd.1 (GoVal.vobj [("type", GoVal.vstr (mapType fieldType))])
      let required := pr.2 ++ (parts.drop 1).filterMap
        (fun part => if goTrimSpace part = "required" then some fd.1 else none)
      (props, required)
  | _ => pr

/-- `buildSchema` (export.go:172-208): JSON-schema object from a field map. -/
def buildSchema (fields : List (String × GoVal)) : GoVal :=
  let pr := fields.foldl buildSchemaStep ([], [])
  GoVal.vobj [("type", GoVal.vstr "object"),
              ("properties", GoVal.vobj pr.1),
              ("required", GoVal.varr (pr.2.map GoVal.vstr))]

/-- `buildResponses` (export.go:133-159): success response under its status
code (with a JSON schema when the body map is non-nil), then the error
responses, overwriting on an equal status code. -/
def buildResponses (endpoint : Endpoint) : List (String × OAResponse) :=
  let responses : List (String × OAResponse) :=
    match endpoint.response with
    | some r =>
        let content : List (String × OAMediaType) :=
          match r.body with
          | some b => [("application/json", ⟨some (buildSchema b)⟩)]
          | none => []
        insertGo [] (toString r.status) ⟨"Success", content⟩
    | none => []
  endpoint.errors.foldl
    (fun acc err => insertGo acc (toString err.status) ⟨err.message, []⟩) responses

/-- `buildRequestBody` (export.go:161-170). -/
def buildRequestBody (request : EndpointRequest) : OARequestBody :=
  ⟨[("application/json", ⟨some (buildSchema (request.body.getD []))⟩)], true⟩

/-- The operation object `exportOpenAPI` stores under `paths[path][method]`
(export.go:100-114), as decoded back by the importer: the keys the exporter
does not write (`description`, `parameters`) decode to Go zero values. -/
def mkExportedOp (endpoint : Endpoint) : OAOperation :=
  { summary := endpoint.description, description := "", parameters := [],
    requestBody :=
      match endpoint.request with
      | some req =>
          match req.body with
          | some _ => some (buildRequestBody req)
          | none => none
      | none => none,
    responses := buildResponses endpoint,
    security := if endpoint.auth then [[("bearerAuth", ([] : List String))]] else [] }

/-- The loop body of `exportOpenAPI` (export.go:93-115): ensure the inner map
for the path exists, then store the operation under the lower-cased method. -/
def exportOpenAPIStep (paths : List (String × List (String × OAOperation)))
    (endpoint : Endpoint) : List (String × List (String × OAOperation)) :=
  let inner := (lookupGo paths endpoint.path).getD []
  insertGo paths endpoint.path
    (insertGo inner (goToLower endpoint.method) (mkExportedOp endpoint))

/-- `exportOpenAPI` (export.go:77-131), as the structured document it marshals
(the top-level `components.securitySchemes` block written when
`AuthType = "bearer"` is never read back by the importer and is not part of
the document shape). -/
def exportOpenAPI (api : API) : OpenAPIDoc :=
  { servers := [⟨api.baseURL⟩],
    paths := api.endpoints.foldl exportOpenAPIStep [] }

/-- Model of `fmt.Sprintf "%s"` applied to a dynamic descriptor value in the
Markdown exporter.  The repository's importers only ever store string
descriptors; for a non-string value Go falls back to its verb-mismatch
rendering, abbreviated here (no claim depends on that text). -/
def goSprintfS (v : GoVal) : String :=
  match v with
  | GoVal.vstr s => s
  | _ => "%!s"

/-- Join a list of strings with a separator (Go `strings.Join`). -/
def joinWith (sep : String) : List String → String
  | [] => ""
  | [x] => x
  | x :: y :: rest => x ++ sep ++ joinWith sep (y :: rest)

/-- `exportMarkdown` (export.go:227-276). -/
def exportMarkdown (api : API) : String :=
  let endpointsMd := api.endpoints.foldl
    (fun sb endpoint =>
      let sb := sb ++ "### " ++ endpoint.method ++ " " ++ endpoint.path ++ "\n"
        ++ endpoint.description ++ "\n\n"
      let sb := if endpoint.auth then sb ++ "**Authentication Required**\n\n" else sb
      let sb :=
        match endpoint.request with
        | some req =>
            match req.body with
            | some body =>
                sb ++ "**Request Body:**\n```json\n\x7b\n"
                  ++ body.foldl (fun acc fd =>
                      acc ++ "  \"" ++ fd.1 ++ "\": \"" ++ goSprintfS fd.2 ++ "\",\n") ""
                  ++ "\x7d\n```\n\n"
            | none => sb
        | none => sb
      let sb :=
        match endpoint.response with
        | some resp =>
            match resp.body with
            | some body =>
                sb ++ "**Response (" ++ toString resp.status ++ "):**\n```json\n\x7b\n"
                  ++ body.foldl (fun acc fd =>
                      acc ++ "  \"" ++ fd.1 ++ "\": \"" ++ goSprintfS fd.2 ++ "\",\n") ""
                  ++ "\x7d\n```\n\n"
            | none => sb
        | none => sb
      let sb :=
        if !endpoint.errors.isEmpty then
          sb ++ "**Errors:**\n"
            ++ endpoint.errors.foldl (fun acc err =>
                acc ++ "- " ++ toString err.status ++ " " ++ err.code ++ ": "
                  ++ err.message ++ "\n") ""
            ++ "\n"
        else sb
      sb ++ "---\n\n") ""
  "# API Documentation\n\n" ++ "Base URL: `" ++ api.baseURL ++ "`\n\n"
    ++ (if api.authType ≠ "none" then
          "## Authentication\nThis API uses " ++ api.authType ++ " authentication.\n\n"
        else "")
    ++ "## Endpoints\n\n" ++ endpointsMd

/-- Insert a string into a sorted list (ascending). -/
def insertSorted (s : String) : List String → List String
  | [] => [s]
  | x :: xs => if s ≤ x then s :: x :: xs else x :: insertSorted s xs

/-- Sort strings ascending, as `encoding/json` sorts map keys on marshal. -/
def sortStrings (l : List String) : List String :=
  l.foldr insertSorted []

/-- Minimal JSON string escaping (quotes and backslashes). -/
def jsonEscape (s : String) : String :=
  ⟨s.data.flatMap fun c =>
    if c = '"' then ['\\', '"'] else if c = '\\' then ['\\', '\\'] else [c]⟩

/-- `json.Marshal` of the Go map sending every declared body field to the
empty-string placeholder (export.go:317-322): keys deduplicated by the map and
emitted in sorted order. -/
def marshalEmptyBody (names : List String) : String :=
  "\x7b" ++
    joinWith "," ((sortStrings names.dedup).map fun n =>
      "\"" ++ jsonEscape n ++ "\":\"\"") ++ "\x7d"

/-- One exported Postman request (export.go:291-332). -/
structure PostmanExportRequest where
  method : String
  rawURL : String
  headers : List (String × String)
  bodyRaw : Option String

/-- One exported Postman collection item. -/
structure PostmanExportItem where
  name : String
  request : PostmanExportRequest

/-- `exportPostman` (export.go:278-341), as the list of collection items the
marshalled JSON contains (the constant `info` block is omitted). -/
def exportPostman (api : API) : List PostmanExportItem :=
  api.endpoints.map fun endpoint =>
    let fullURL := api.baseURL ++ endpoint.path
    let headers : List (String × String) :=
      if endpoint.auth then [("Authorization", "Bearer \x7b\x7btoken\x7d\x7d")] else []
    let bodyRaw :=
      match endpoint.request with
      | some req =>
          match req.body with
          | some body => some (marshalEmptyBody (body.map Prod.fst))
          | none => none
      | none => none
    ⟨endpoint.description, ⟨endpoint.method, fullURL, headers, bodyRaw⟩⟩

/-! ## Merge engine (internal/commands/watch.go: mergeWithExisting) -/

/-- The `"<METHOD>:<path>"` deduplication key (watch.go:268). -/
def endpointKey (e : Endpoint) : String :=
  e.method ++ ":" ++ e.path

/-- `mergeWithExisting` (watch.go:222-284), pure part: merging a loaded
existing API with an imported one.  The endpoint map is seeded with the
existing endpoints and then every imported endpoint is written over it. -/
def mergeWithExisting (existingAPI importedAPI : API) : API :=
  let baseURL :=
    if importedAPI.baseURL ≠ "" ∧ importedAPI.baseURL ≠ "/api/v1" then
      importedAPI.baseURL
    else existingAPI.baseURL
  let authType :=
    if importedAPI.authType ≠ "" ∧ importedAPI.authType ≠ "none" then
      importedAPI.authType
    else existingAPI.authType
  let endpointMap := existingAPI.endpoints.foldl
    (fun m e => insertGo m (endpointKey e) e) []
  let endpointMap := importedAPI.endpoints.foldl
    (fun m e => insertGo m (endpointKey e) e) endpointMap
  { baseURL := baseURL, authType := authType,
    endpoints := endpointMap.map Prod.snd }

/-! ## Format detector (internal/importers/interface.go: DetectFormat) -/

/-- Go `filepath.Ext`: the suffix starting at the final dot in the final path
element, "" if that element has no dot. -/
def filepathExt (s : String) : String :=
  let base := ((goSplit s '/').getLast?).getD s
  let parts := goSplit base '.'
  if parts.length ≤ 1 then ""
  else "." ++ ((parts.getLast?).getD "")

/-- `ImporterFactory.DetectFormat` (interface.go:42-67) over the file name and
the file's text (`none` models the unsupported-extension error). -/
def detectFormat (filename content : String) : Option String :=
  let ext := filepathExt filename
  if ext = ".json" then
    if strContains content "openapi" || strContains content "swagger" then
      some "openapi"
    else if strContains content "postman" || strContains content "collection" then
      some "postman"
    else some "openapi"
  else if ext = ".yaml" ∨ ext = ".yml" then some "openapi"
  else none

/-! ## Postman importer (internal/importers/postman.go)

Only the parts the claims exercise are embedded: the collection/item/auth
shape, the recursive request discovery, auth-type inference, the JSON body
type inferencer and the base-URL common-prefix computation.  Collection
variables, raw-URL parsing (`net/url`) and response defaulting are not needed
by these functions as modelled. -/

namespace PostmanImporter

/-- `PostmanAuth` (`ty` is the Go field `Type`; the credential arrays are
never read by the embedded functions). -/
structure PostmanAuth where
  ty : String

/-- `PostmanHeader` (its description field is never read). -/
structure PostmanHeader where
  key : String
  value : String
  disabled : Bool

/-- `PostmanFormParameter` (`ty` is the Go field `Type`). -/
structure PostmanFormParameter where
  key : String
  value : String
  ty : String
  disabled : Bool

/-- `PostmanBody`. -/
structure PostmanBody where
  mode : String
  raw : String
  urlencoded : List PostmanFormParameter
  formdata : List PostmanFormParameter

/-- `PostmanRequest` (URL omitted: path extraction is modelled separately). -/
structure PostmanRequest where
  method : String
  header : List PostmanHeader
  auth : Option PostmanAuth

/-- `PostmanItem`: a leaf request or a folder of nested items. -/
inductive PostmanItem where
  | mk (name : String) (request : Option PostmanRequest) (item : List PostmanItem)

/-- The item's request, when it is a leaf. -/
def PostmanItem.request : PostmanItem → Option PostmanRequest
  | PostmanItem.mk _ r _ => r

/-- The item's nested items, when it is a folder. -/
def PostmanItem.item : PostmanItem → List PostmanItem
  | PostmanItem.mk _ _ l => l

/-- `PostmanCollection` (variables are not consulted by the embedded
functions; `info` is only a validity marker). -/
structure PostmanCollection where
  auth : Option PostmanAuth
  item : List PostmanItem

/-- `PostmanImporter.getAllRequests` (postman.go:325-338): depth-first
collection of every item carrying a request. -/
def getAllRequests : List PostmanItem → List PostmanItem
  | [] => []
  | PostmanItem.mk name req items :: rest =>
      (if req.isSome then [PostmanItem.mk name req items]
       else if !items.isEmpty then getAllRequests items
       else []) ++ getAllRequests rest

/-- `PostmanImporter.mapPostmanAuthType` (postman.go:497-510). -/
def mapPostmanAuthType (postmanType : String) : String :=
  let t := goToLower postmanType
  if t = "bearer" then "bearer"
  else if t = "basic" then "basic"
  else if t = "apikey" then "apikey"
  else if t = "oauth1" ∨ t = "oauth2" then "bearer"
  else "none"

/-- The header loop inside `determineAuthType` (postman.go:476-490): the first
classifying header wins; an Authorization value is checked for "bearer" before
"basic" (both case-insensitively). -/
def scanHeadersForAuth : List PostmanHeader → Option String
  | [] => none
  | h :: rest =>
      if goToLower h.key = "authorization" ∧
          strContains (goToLower h.value) "bearer" then some "bearer"
      else if goToLower h.key = "authorization" ∧
          strContains (goToLower h.value) "basic" then some "basic"
      else if goToLower h.key = "x-api-key" then some "apikey"
      else scanHeadersForAuth rest

/-- The request loop inside `determineAuthType` (postman.go:469-491): the
first request with an auth block decides via `mapPostmanAuthType`; otherwise
its headers may classify; otherwise the scan moves on. -/
def scanRequestsForAuth : List PostmanItem → String
  | [] => "none"
  | i :: rest =>
      match i.request with
      | some req =>
          match req.auth with
          | some a => mapPostmanAuthType a.ty
          | none =>
              match scanHeadersForAuth req.header with
              | some t => t
              | none => scanRequestsForAuth rest
      | none => scanRequestsForAuth rest

/-- `PostmanImporter.determineAuthType` (postman.go:462-494): a
collection-level auth block is consulted first; only when it is absent are
the discovered requests scanned. -/
def determineAuthType (collection : PostmanCollection) : String :=
  match collection.auth with
  | some a => mapPostmanAuthType a.ty
  | none => scanRequestsForAuth (getAllRequests collection.item)

/-- Lower-case hex digit (the character class of the UUID pattern). -/
def isHexLower (c : Char) : Bool :=
  c.isDigit || ('a' ≤ c && c ≤ 'f')

/-- `PostmanImporter.looksLikeUUID` (postman.go:627-631): the anchored
8-4-4-4-12 pattern over the lower-cased string.  Since the hex class excludes
the dash, the regex holds exactly when splitting on "-" yields five all-hex
groups of those lengths. -/
def looksLikeUUID (s : String) : Bool :=
  match splitOnCharL '-' (goToLower s).data with
  | [a, b, c, d, e] =>
      a.length = 8 && b.length = 4 && c.length = 4 && d.length = 4 &&
      e.length = 12 && (a ++ b ++ c ++ d ++ e).all isHexLower
  | _ => false

/-- A character of a simple regex pattern: `\d` or a literal. -/
inductive Pat where
  | digit : Pat
  | lit (c : Char) : Pat

/-- Match a simple pattern at the start of a char list. -/
def matchAtP : List Pat → List Char → Bool
  | [], _ => true
  | _ :: _, [] => false
  | Pat.digit :: ps, c :: cs => c.isDigit && matchAtP ps cs
  | Pat.lit a :: ps, c :: cs => a = c && matchAtP ps cs

/-- Unanchored match of a simple pattern (Go `regexp.MatchString` for a
pattern with no anchors). -/
def containsPatL (p : List Pat) : List Char → Bool
  | [] => matchAtP p []
  | c :: rest => matchAtP p (c :: rest) || containsPatL p rest

/-- `n` digits. -/
def dpat (n : Nat) : List Pat :=
  List.replicate n Pat.digit

/-- The ISO-8601 pattern of `looksLikeDateTime`. -/
def isoPat : List Pat :=
  dpat 4 ++ [Pat.lit '-'] ++ dpat 2 ++ [Pat.lit '-'] ++ dpat 2 ++ [Pat.lit 'T']
    ++ dpat 2 ++ [Pat.lit ':'] ++ dpat 2 ++ [Pat.lit ':'] ++ dpat 2

/-- The SQL-datetime pattern of `looksLikeDateTime`. -/
def sqlPat : List Pat :=
  dpat 4 ++ [Pat.lit '-'] ++ dpat 2 ++ [Pat.lit '-'] ++ dpat 2 ++ [Pat.lit ' ']
    ++ dpat 2 ++ [Pat.lit ':'] ++ dpat 2 ++ [Pat.lit ':'] ++ dpat 2

/-- The bare-date pattern of `looksLikeDateTime`. -/
def datePat : List Pat :=
  dpat 4 ++ [Pat.lit '/'] ++ dpat 2 ++ [Pat.lit '/'] ++ dpat 2

/-- `PostmanImporter.looksLikeDateTime` (postman.go:634-648): any of the three
unanchored patterns occurs in the string. -/
def looksLikeDateTime (s : String) : Bool :=
  containsPatL isoPat s.data || containsPatL sqlPat s.data ||
    containsPatL datePat s.data

/-- The local-part character class of the email pattern. -/
def emailLocalChar (c : Char) : Bool :=
  c.isAlphanum || c = '.' || c = '_' || c = '%' || c = '+' || c = '-'

/-- The domain character class of the email pattern. -/
def emailDomainChar (c : Char) : Bool :=
  c.isAlphanum || c = '.' || c = '-'

/-- `PostmanImporter.looksLikeEmail` (postman.go:651-655): the anchored
pattern `local@domain.tld`.  The classes exclude "@", so a match forces
exactly one "@"; the trailing alphabetic run excludes ".", so the final dot of
a match is the last dot after the "@". -/
def looksLikeEmail (s : String) : Bool :=
  match goSplit s '@' with
  | [localPart, domain] =>
      match (goSplit domain '.').reverse with
      | tld :: d1 :: drest =>
          let mid := joinWith "." ((d1 :: drest).reverse)
          !localPart.isEmpty && localPart.data.all emailLocalChar &&
          !mid.isEmpty && mid.data.all emailDomainChar &&
          decide (tld.length ≥ 2) && tld.data.all Char.isAlpha
      | _ => false
  | _ => false

/-- `PostmanImporter.inferJSONFieldType` (postman.go:597-624).  The `vnum`
case is Go's `float64` (every JSON-decoded number); the `vint` case is the
switch's `int, int64` arm, reachable only from native Go values. -/
def inferJSONFieldType (value : GoVal) : String :=
  match value with
  | GoVal.vstr v =>
      if looksLikeUUID v then "uuid"
      else if looksLikeDateTime v then "datetime"
      else if looksLikeEmail v then "string"
      else "string"
  | GoVal.vnum _ => "number"
  | GoVal.vint _ => "integer"
  | GoVal.vbool _ => "boolean"
  | GoVal.varr _ => "array"
  | GoVal.vobj _ => "object"
  | _ => "string"

/-- `PostmanImporter.parseJSONBody` (postman.go:576-594) after the
`json.Unmarshal` step: `none` is a failed JSON decode (a generic required
object field results); a decoded top-level object makes every key a required
field of its inferred type. -/
def parseJSONBody (jsonData : Option (List (String × GoVal))) :
    List (String × GoVal) :=
  match jsonData with
  | none => [("body", GoVal.vstr "object, required")]
  | some jsonData =>
      jsonData.foldl (fun fields kv =>
        insertGo fields kv.1 (GoVal.vstr (inferJSONFieldType kv.2 ++ ", required"))) []

/-- The index loop of `findCommonPathPrefix` (postman.go:368-387): walk the
segment lists in step while every list still agrees with the first one's
segment, collecting each common segment that is not an unresolved
template placeholder. -/
def commonLoop : List String → List (List String) → List String
  | [], _ => []
  | h :: t, others =>
      if others.all (fun l => l.head? = some h) then
        let rest := commonLoop t (others.map (·.tail))
        if strContains h "\x7b\x7b" then rest else h :: rest
      else []

/-- The per-path segment split of `findCommonPathPrefix` (postman.go:347-353):
paths whose first trimmed segment is empty are dropped. -/
def parsePathSegments (path : String) : Option (List String) :=
  match goSplit (goTrimSlash path) '/' with
  | [] => none
  | s :: rest => if s = "" then none else some (s :: rest)

/-- `PostmanImporter.findCommonPathPrefix` (postman.go:341-394); the name
carries an `Fn` suffix for this file. -/
def findCommonPathPrefixFn (paths : List String) : String :=
  match paths.filterMap parsePathSegments with
  | [] => ""
  | first :: rest =>
      let commonSegments := commonLoop first rest
      if !commonSegments.isEmpty then "/" ++ joinSlash commonSegments else ""

/-- The request-path aggregation of `extractBaseURL` (postman.go:297-321):
its input is the extracted path of each discovered request in document order
("" when the request had no usable URL); only the first 5 requests are
sampled, empty paths are dropped, and the common prefix is used when
non-empty, with the `/api/v1` default otherwise. -/
def baseURLFromPaths (paths : List String) : String :=
  let sampled := (paths.take 5).filter (fun p => p ≠ "")
  if !sampled.isEmpty then
    let commonPath := findCommonPathPrefixFn sampled
    if commonPath ≠ "" then commonPath else "/api/v1"
  else "/api/v1"

end PostmanImporter

/-! ## Theorems -/

/-- Claim C2, counterexample: a property schema that carries both
`type = "string"` and `format = "uuid"` is imported with tag "string", not
"uuid" — the format override is not applied whenever `format = uuid` is
present, because a string-valued "type" key returns before the format check. -/
theorem c2_counterexample :
    OpenAPIImporter.convertSchemaType
      (some (GoVal.vobj [("type", GoVal.vstr "string"), ("format", GoVal.vstr "uuid")]))
      = "string" ∧ ("string" : String) ≠ "uuid" := by
  exact ⟨rfl, by decide⟩

/-- Claim C2 as amended: the type switch maps integer/number to "integer",
boolean, array and object to themselves and every other string type to
"string"; the format overrides (uuid → "uuid", date-time → "datetime",
email → "string") apply only when the schema has no "type" key (or, in the
code, no string-valued one). -/
theorem c2_schema_type_mapping :
    (∀ m, lookupGo m "type" = some (GoVal.vstr "integer") →
      OpenAPIImporter.convertSchemaType (some (GoVal.vobj m)) = "integer")
    ∧ (∀ m, lookupGo m "type" = some (GoVal.vstr "number") →
      OpenAPIImporter.convertSchemaType (some (GoVal.vobj m)) = "integer")
    ∧ (∀ m, lookupGo m "type" = some (GoVal.vstr "boolean") →
      OpenAPIImporter.convertSchemaType (some (GoVal.vobj m)) = "boolean")
    ∧ (∀ m, lookupGo m "type" = some (GoVal.vstr "array") →
      OpenAPIImporter.convertSchemaType (some (GoVal.vobj m)) = "array")
    ∧ (∀ m, lookupGo m "type" = some (GoVal.vstr "object") →
      OpenAPIImporter.convertSchemaType (some (GoVal.vobj m)) = "object")
    ∧ (∀ m t, lookupGo m "type" = some (GoVal.vstr t) →
      t ∉ ["integer", "number", "boolean", "array", "object"] →
      OpenAPIImporter.convertSchemaType (some (GoVal.vobj m)) = "string")
    ∧ (∀ m, lookupGo m "type" = none →
      lookupGo m "format" = some (GoVal.vstr "uuid") →
      OpenAPIImporter.convertSchemaType (some (GoVal.vobj m)) = "uuid")
    ∧ (∀ m, lookupGo m "type" = none →
      lookupGo m "format" = some (GoVal.vstr "date-time") →
      OpenAPIImporter.convertSchemaType (some (GoVal.vobj m)) = "datetime")
    ∧ (∀ m, lookupGo m "type" = none →
      lookupGo m "format" = some (GoVal.vstr "email") →
      OpenAPIImporter.convertSchemaType (some (GoVal.vobj m)) = "string") := by
  refine ⟨?_, ?_, ?_, ?_, ?_, ?_, ?_, ?_, ?_⟩ <;>
    intro m
  case _ => intro h; simp [OpenAPIImporter.convertSchemaType, h]
  case _ => intro h; simp [OpenAPIImporter.convertSchemaType, h]
  case _ => intro h; simp [OpenAPIImporter.convertSchemaType, h]
  case _ => intro h; simp [OpenAPIImporter.convertSchemaType, h]
  case _ => intro h; simp [OpenAPIImporter.convertSchemaType, h]
  case _ =>
    intro t h hmem
    simp only [List.mem_cons, List.not_mem_nil, or_false] at hmem
    push_neg at hmem
    obtain ⟨h1, h2, h3, h4, h5⟩ := hmem
    simp [OpenAPIImporter.convertSchemaType, h, h1, h2, h3, h4, h5]
  case _ => intro h hf; simp [OpenAPIImporter.convertSchemaType, h, hf]
  case _ => intro h hf; simp [OpenAPIImporter.convertSchemaType, h, hf]
  case _ => intro h hf; simp [OpenAPIImporter.convertSchemaType, h, hf]

/-- Witness for C2: the amended mapping evaluated at two concrete schemas. -/
theorem c2_witness :
    OpenAPIImporter.convertSchemaType (some (GoVal.vobj [("type", GoVal.vstr "number")]))
        = "integer"
    ∧ OpenAPIImporter.convertSchemaType (some (GoVal.vobj [("format", GoVal.vstr "uuid")]))
        = "uuid" := by
  exact ⟨c2_schema_type_mapping.2.1 _ rfl,
    (c2_schema_type_mapping.2.2.2.2.2.2.1) _ rfl rfl⟩

/-- Claim C4, counterexample: a raw JSON body field holding the number 42 is
typed "number", not "integer" — `encoding/json` decodes every JSON number to
`float64`, so the inferencer's integer arm is never reached from a parsed
body. -/
theorem c4_counterexample :
    PostmanImporter.parseJSONBody (some [("n", GoVal.vnum 42)]) =
      [("n", GoVal.vstr "number, required")]
    ∧ PostmanImporter.inferJSONFieldType (GoVal.vnum 42) = "number"
    ∧ ("number" : String) ≠ "integer" := by
  exact ⟨rfl, rfl, by decide⟩

/-- Claim C4 as amended: in a parsed raw JSON Postman body the inferencer maps
the canonical UUID string to "uuid", the ISO datetime to "datetime", an email
to "string", and both 42 and 3.14 to "number" (JSON numbers decode as
floating-point values, so the integer arm applies only to native Go integers,
which never occur in a decoded body); the inferencer is total and always
yields one of the eight tags. -/
theorem c4_type_inference_boundary :
    PostmanImporter.inferJSONFieldType
        (GoVal.vstr "123e4567-e89b-12d3-a456-426614174000") = "uuid"
    ∧ PostmanImporter.inferJSONFieldType (GoVal.vstr "2024-01-15T10:00:00") = "datetime"
    ∧ PostmanImporter.inferJSONFieldType (GoVal.vstr "hello@test.com") = "string"
    ∧ PostmanImporter.inferJSONFieldType (GoVal.vnum 42) = "number"
    ∧ PostmanImporter.inferJSONFieldType (GoVal.vnum 3.14) = "number"
    ∧ PostmanImporter.inferJSONFieldType (GoVal.vint 42) = "integer"
    ∧ (∀ v, PostmanImporter.inferJSONFieldType v ∈
        ["uuid", "datetime", "string", "number", "integer", "boolean", "array", "object"]) := by
  refine ⟨by decide, by decide, by decide, rfl, rfl, rfl, ?_⟩
  intro v
  cases v <;>
    first
      | (simp only [PostmanImporter.inferJSONFieldType]
         split_ifs <;> simp_all)
      | simp [PostmanImporter.inferJSONFieldType]

/-- Claim C7, counterexample: a .json file whose content contains none of the
substrings "openapi", "postman", "swagger" can still detect as "postman" —
the detector also recognizes the marker "collection". -/
theorem c7_counterexample :
    detectFormat "input.json" "x-collection" = some "postman"
    ∧ strContains "x-collection" "openapi" = false
    ∧ strContains "x-collection" "postman" = false
    ∧ strContains "x-collection" "swagger" = false
    ∧ (some "postman" : Option String) ≠ some "openapi" := by
  refine ⟨by decide, by decide, by decide, by decide, by decide⟩

/-- Claim C7 as amended: a .json file containing "openapi" (or "swagger")
detects as "openapi"; one containing "postman" or "collection" but neither
"openapi" nor "swagger" detects as "postman"; a .json file containing none of
the four markers defaults to "openapi"; .yaml/.yml always detect as "openapi";
any other extension is an error. -/
theorem c7_format_detection :
    (∀ name content, filepathExt name = ".json" →
      strContains content "openapi" = true → detectFormat name content = some "openapi")
    ∧ (∀ name content, filepathExt name = ".json" →
      strContains content "postman" = true → strContains content "openapi" = false →
      strContains content "swagger" = false → detectFormat name content = some "postman")
    ∧ (∀ name content, filepathExt name = ".json" →
      strContains content "collection" = true → strContains content "openapi" = false →
      strContains content "swagger" = false → detectFormat name content = some "postman")
    ∧ (∀ name content, filepathExt name = ".json" →
      strContains content "openapi" = false → strContains content "swagger" = false →
      strContains content "postman" = false → strContains content "collection" = false →
      detectFormat name content = some "openapi")
    ∧ (∀ name content, filepathExt name = ".yaml" ∨ filepathExt name = ".yml" →
      detectFormat name content = some "openapi")
    ∧ (∀ name content, filepathExt name ∉ [".json", ".yaml", ".yml"] →
      detectFormat name content = none) := by
  refine ⟨?_, ?_, ?_, ?_, ?_, ?_⟩ <;> intro name content
  case _ => intro he h; simp [detectFormat, he, h]
  case _ => intro he hp ho hs; simp [detectFormat, he, hp, ho, hs]
  case _ => intro he hc ho hs; simp [detectFormat, he, hc, ho, hs]
  case _ => intro he ho hs hp hc; simp [detectFormat, he, ho, hs, hp, hc]
  case _ =>
    intro he
    rcases he with h | h <;> simp [detectFormat, h]
  case _ =>
    intro he
    simp only [List.mem_cons, List.not_mem_nil, or_false] at he
    push_neg at he
    obtain ⟨h1, h2, h3⟩ := he
    simp [detectFormat, h1, h2, h3]

/-- Witness for C7: the amended detector rules at concrete files. -/
theorem c7_witness :
    detectFormat "spec.json" "openapi 3.0" = some "openapi"
    ∧ detectFormat "coll.json" "my postman export" = some "postman"
    ∧ detectFormat "spec.yaml" "anything" = some "openapi"
    ∧ detectFormat "spec.txt" "openapi" = none := by
  refine ⟨c7_format_detection.1 _ _ (by decide) (by decide),
    c7_format_detection.2.1 _ _ (by decide) (by decide) (by decide) (by decide),
    c7_format_detection.2.2.2.2.1 _ _ (Or.inl (by decide)),
    c7_format_detection.2.2.2.2.2 _ _ (by decide)⟩

/-- Claim C8: the common-prefix inference yields /api/v1 on the three claimed
paths (both for the raw segment computation and for the base-URL aggregation
over discovered request paths), only the first 5 discovered requests are ever
sampled, and unresolved template segments are skipped rather than emitted. -/
theorem c8_common_path_inference :
    PostmanImporter.findCommonPathPrefixFn
        ["/api/v1/users", "/api/v1/users/\x7bid\x7d", "/api/v1/orders"] = "/api/v1"
    ∧ PostmanImporter.baseURLFromPaths
        ["/api/v1/users", "/api/v1/users/\x7bid\x7d", "/api/v1/orders"] = "/api/v1"
    ∧ (∀ paths, PostmanImporter.baseURLFromPaths paths =
        PostmanImporter.baseURLFromPaths (paths.take 5))
    ∧ PostmanImporter.findCommonPathPrefixFn
        ["/\x7b\x7bbase\x7d\x7d/v1/users", "/\x7b\x7bbase\x7d\x7d/v1/orders"] = "/v1" := by
  refine ⟨by decide, by decide, ?_, by decide⟩
  intro paths
  simp [PostmanImporter.baseURLFromPaths, List.take_take]

/-- A selected 2xx status-code string parses to 200, 201 or 204. -/
theorem parseStatusCode_of_2xx (s : String) (h : goStartsWith s "2" = true) :
    OpenAPIImporter.parseStatusCode s = 200 ∨
    OpenAPIImporter.parseStatusCode s = 201 ∨
    OpenAPIImporter.parseStatusCode s = 204 := by
  unfold OpenAPIImporter.parseStatusCode
  split_ifs with h1 h2 h3 h4 h5 h6 h7 h8
  · exact Or.inl rfl
  · exact Or.inr (Or.inl rfl)
  · exact Or.inr (Or.inr rfl)
  · subst h4; exact absurd h (by decide)
  · subst h5; exact absurd h (by decide)
  · subst h6; exact absurd h (by decide)
  · subst h7; exact absurd h (by decide)
  · subst h8; exact absurd h (by decide)
  · exact Or.inl rfl

/-- The response field computed by `convertOperation`. -/
theorem convertOperation_response (path method : String) (op : OAOperation) :
    (OpenAPIImporter.convertOperation path method op).response =
      match op.responses.find? (fun p => goStartsWith p.1 "2") with
      | some p =>
          some { status := OpenAPIImporter.parseStatusCode p.1,
                 body := some ((OpenAPIImporter.extractSchemaFields p.2.content).map
                   fun q => (q.1, GoVal.vstr q.2)) }
      | none => none := rfl

/-- Claim C10: every endpoint the OpenAPI importer produces with a response
has status 200, 201 or 204; the selected 2xx status string is matched exactly
against "200"/"201"/"204" and any other selected string falls to the default
branch, which yields 200. -/
theorem c10_response_status_invariant :
    (∀ doc : OpenAPIDoc, ∀ e ∈ (OpenAPIImporter.importDoc doc).endpoints,
      ∀ r, e.response = some r → r.status = 200 ∨ r.status = 201 ∨ r.status = 204)
    ∧ (∀ s, goStartsWith s "2" = true → s ≠ "200" → s ≠ "201" → s ≠ "204" →
      OpenAPIImporter.parseStatusCode s = 200) := by
  constructor
  · intro doc e he r hr
    simp only [OpenAPIImporter.importDoc, List.mem_flatMap, List.mem_map] at he
    obtain ⟨pi, hpi, mo, hmo, he⟩ := he
    subst he
    rw [convertOperation_response] at hr
    cases hfind : mo.2.responses.find? (fun p => goStartsWith p.1 "2") with
    | none => rw [hfind] at hr; cases hr
    | some pr =>
        rw [hfind] at hr
        have hpref : goStartsWith pr.1 "2" = true := by
          have := List.find?_some hfind
          simpa using this
        have := parseStatusCode_of_2xx pr.1 hpref
        cases hr
        exact this
  · intro s h h0 h1 h4
    simp only [OpenAPIImporter.parseStatusCode, if_neg h0, if_neg h1, if_neg h4]
    split_ifs with g1 g2 g3 g4 g5
    · subst g1; exact absurd h (by decide)
    · subst g2; exact absurd h (by decide)
    · subst g3; exact absurd h (by decide)
    · subst g4; exact absurd h (by decide)
    · subst g5; exact absurd h (by decide)
    · rfl

/-- A one-operation document whose only response is listed under "202". -/
def exDoc202 : OpenAPIDoc :=
  { servers := [],
    paths := [("/a", [("get",
      { summary := "s", description := "", parameters := [], requestBody := none,
        responses := [("202", ⟨"Accepted", []⟩)], security := [] })])] }

/-- Witness for C10: the endpoint imported from a document with a "202"
response carries one of the three statuses (in fact 200). -/
theorem c10_witness :
    (∃ e ∈ (OpenAPIImporter.importDoc exDoc202).endpoints, ∃ r, e.response = some r ∧
      (r.status = 200 ∨ r.status = 201 ∨ r.status = 204))
    ∧ OpenAPIImporter.parseStatusCode "202" = 200 := by
  constructor
  · refine ⟨_, List.mem_singleton_self _, ⟨200, some []⟩, rfl, ?_⟩
    exact c10_response_status_invariant.1 exDoc202 _ (List.mem_singleton_self _)
      ⟨200, some []⟩ rfl
  · exact c10_response_status_invariant.2 "202" (by decide) (by decide) (by decide)
      (by decide)

/-- Claim C3, counterexample: with a collection-level auth of type "basic" and
a request-level auth of type "bearer", the inferred API auth type is "basic" —
the collection level, not the request level, takes precedence. -/
theorem c3_counterexample :
    PostmanImporter.determineAuthType
      { auth := some ⟨"basic"⟩,
        item := [PostmanImporter.PostmanItem.mk "r"
          (some { method := "GET", header := [], auth := some ⟨"bearer"⟩ }) []] }
      = "basic"
    ∧ ("basic" : String) ≠ "bearer" := by
  exact ⟨rfl, by decide⟩

/-- Whether a discovered request carries no auth signal at all (no auth block
and no classifying header). -/
def requestHasNoAuthSignal (i : PostmanImporter.PostmanItem) : Bool :=
  match i.request with
  | some req => req.auth.isNone && (PostmanImporter.scanHeadersForAuth req.header).isNone
  | none => true

/-- The request scan returns "none" when no scanned request has a signal. -/
theorem scanRequestsForAuth_none (l : List PostmanImporter.PostmanItem)
    (h : ∀ i ∈ l, requestHasNoAuthSignal i = true) :
    PostmanImporter.scanRequestsForAuth l = "none" := by
  induction l with
  | nil => rfl
  | cons i rest ih =>
      have hi := h i (List.mem_cons_self i rest)
      cases hreq : i.request with
      | none =>
          simp only [PostmanImporter.scanRequestsForAuth, hreq]
          exact ih fun j hj => h j (List.mem_cons_of_mem i hj)
      | some req =>
          simp only [requestHasNoAuthSignal, hreq, Bool.and_eq_true,
            Option.isNone_iff_eq_none] at hi
          simp only [PostmanImporter.scanRequestsForAuth, hreq, hi.1, hi.2]
          exact ih fun j hj => h j (List.mem_cons_of_mem i hj)

/-- Claim C3 as amended: the collection-level auth.type takes precedence over
the request-level auth.type; only when the collection has no auth block are
the discovered requests scanned in order, a request's auth.type deciding
first, then its headers (an Authorization value containing "bearer" wins over
"basic", an X-API-Key header classifies as apikey); with no signal anywhere
the result is "none"; Postman auth types oauth1 and oauth2 both map to bearer. -/
theorem c3_auth_type_inference :
    (∀ c a, PostmanImporter.PostmanCollection.auth c = some a →
      PostmanImporter.determineAuthType c = PostmanImporter.mapPostmanAuthType a.ty)
    ∧ PostmanImporter.mapPostmanAuthType "oauth1" = "bearer"
    ∧ PostmanImporter.mapPostmanAuthType "oauth2" = "bearer"
    ∧ (∀ key value d rest, goToLower key = "authorization" →
      strContains (goToLower value) "bearer" = true →
      PostmanImporter.scanHeadersForAuth (⟨key, value, d⟩ :: rest) = some "bearer")
    ∧ (∀ key value d rest, goToLower key = "authorization" →
      strContains (goToLower value) "bearer" = false →
      strContains (goToLower value) "basic" = true →
      PostmanImporter.scanHeadersForAuth (⟨key, value, d⟩ :: rest) = some "basic")
    ∧ (∀ key value d rest, goToLower key = "x-api-key" →
      PostmanImporter.scanHeadersForAuth (⟨key, value, d⟩ :: rest) = some "apikey")
    ∧ (∀ c name req items rest a, PostmanImporter.PostmanCollection.auth c = none →
      PostmanImporter.PostmanCollection.item c =
        PostmanImporter.PostmanItem.mk name (some req) items :: rest →
      req.auth = some a →
      PostmanImporter.determineAuthType c = PostmanImporter.mapPostmanAuthType a.ty)
    ∧ (∀ c, PostmanImporter.PostmanCollection.auth c = none →
      (∀ i ∈ PostmanImporter.getAllRequests c.item, requestHasNoAuthSignal i = true) →
      PostmanImporter.determineAuthType c = "none") := by
  refine ⟨?_, by decide, by decide, ?_, ?_, ?_, ?_, ?_⟩
  · intro c a h
    simp [PostmanImporter.determineAuthType, h]
  · intro key value d rest hk hv
    simp [PostmanImporter.scanHeadersForAuth, hk, hv]
  · intro key value d rest hk hb hv
    simp [PostmanImporter.scanHeadersForAuth, hk, hb, hv]
  · intro key value d rest hk
    simp [PostmanImporter.scanHeadersForAuth, hk]
  · intro c name req items rest a hc hi hr
    simp [PostmanImporter.determineAuthType, hc, hi,
      PostmanImporter.getAllRequests, PostmanImporter.scanRequestsForAuth,
      PostmanImporter.PostmanItem.request, hr]
  · intro c hc h
    simp only [PostmanImporter.determineAuthType, hc]
    exact scanRequestsForAuth_none _ h

/-- Witness for C3: the amended rules evaluated on concrete collections. -/
theorem c3_witness :
    PostmanImporter.determineAuthType { auth := some ⟨"oauth2"⟩, item := [] } = "bearer"
    ∧ PostmanImporter.scanHeadersForAuth [⟨"Authorization", "Bearer abc", false⟩]
        = some "bearer"
    ∧ PostmanImporter.determineAuthType { auth := none, item := [] } = "none" := by
  refine ⟨?_, ?_, ?_⟩
  · exact (c3_auth_type_inference.1 ⟨some ⟨"oauth2"⟩, []⟩ ⟨"oauth2"⟩ rfl).trans
      c3_auth_type_inference.2.2.1
  · exact c3_auth_type_inference.2.2.2.1 "Authorization" "Bearer abc" false []
      (by decide) (by decide)
  · exact c3_auth_type_inference.2.2.2.2.2.2.2 ⟨none, []⟩ rfl
      (by intro i hi; simp [PostmanImporter.getAllRequests] at hi)

/-! ## Lemmas about the Go-map model and the merge engine -/

/-- The last endpoint of a list under a given `"<METHOD>:<path>"` key: the
value such a key holds in a Go map filled by iterating the list. -/
def findLastByKey (es : List Endpoint) (k : String) : Option Endpoint :=
  es.reverse.find? (fun e => endpointKey e == k)

/-- Looking up after a Go-map write. -/
theorem lookupGo_insertGo {α : Type} (m : List (String × α)) (k q : String) (v : α) :
    lookupGo (insertGo m k v) q = if k = q then some v else lookupGo m q := by
  induction m with
  | nil => simp [insertGo, lookupGo]
  | cons hd tl ih =>
      obtain ⟨k₀, v₀⟩ := hd
      by_cases h0 : k₀ = k
      · subst h0
        simp only [insertGo, if_pos rfl, lookupGo]
        by_cases hq : k₀ = q <;> simp [hq, lookupGo]
      · simp only [insertGo, if_neg h0, lookupGo]
        by_cases hq : k₀ = q
        · subst hq
          have : ¬k = k₀ := fun h => h0 h.symm
          simp [this]
        · simp [hq, ih]

/-- Splitting off the head of the list under `findLastByKey`. -/
theorem findLastByKey_cons (e : Endpoint) (rest : List Endpoint) (k : String) :
    findLastByKey (e :: rest) k =
      Option.or (findLastByKey rest k)
        (if endpointKey e == k then some e else none) := by
  simp only [findLastByKey, List.reverse_cons, List.find?_append]
  congr 1
  cases h : (endpointKey e == k) <;> simp [List.find?_cons, h]

/-- Folding a list of endpoints into a Go map: the accumulated map answers
with the last list element under the key, else with the seed map. -/
theorem lookupGo_foldIns (es : List Endpoint) (m : List (String × Endpoint))
    (k : String) :
    lookupGo (es.foldl (fun m e => insertGo m (endpointKey e) e) m) k =
      Option.or (findLastByKey es k) (lookupGo m k) := by
  induction es generalizing m with
  | nil => simp [findLastByKey]
  | cons e rest ih =>
      simp only [List.foldl_cons]
      rw [ih, findLastByKey_cons, lookupGo_insertGo]
      cases hfd : findLastByKey rest k with
      | some e' => simp
      | none =>
          by_cases hk : endpointKey e = k
          · simp [hk]
          · have hb : (endpointKey e == k) = false := by simp [hk]
            simp [hb, if_neg hk]

/-- Every entry of a fold-built endpoint map is keyed by its own endpoint key,
and the keys are distinct. -/
def WfEndpointMap (m : List (String × Endpoint)) : Prop :=
  (∀ p ∈ m, endpointKey p.2 = p.1) ∧ (m.map Prod.fst).Nodup

/-- A key outside a map looks up to nothing. -/
theorem lookupGo_eq_none {α : Type} (m : List (String × α)) (k : String)
    (h : k ∉ m.map Prod.fst) : lookupGo m k = none := by
  induction m with
  | nil => rfl
  | cons hd tl ih =>
      simp only [List.map_cons, List.mem_cons] at h
      push_neg at h
      simp only [lookupGo]
      rw [if_neg (fun he => h.1 he.symm)]
      exact ih h.2

/-- The key list after a Go-map write: unchanged when the key was present,
extended by the key otherwise. -/
theorem map_fst_insertGo {α : Type} (m : List (String × α)) (k : String) (v : α) :
    (insertGo m k v).map Prod.fst =
      if k ∈ m.map Prod.fst then m.map Prod.fst
      else m.map Prod.fst ++ [k] := by
  induction m with
  | nil => simp [insertGo]
  | cons hd tl ih =>
      obtain ⟨k₁, v₁⟩ := hd
      by_cases h1 : k₁ = k
      · subst h1; simp [insertGo]
      · have hne : ¬k = k₁ := fun h => h1 h.symm
        simp only [insertGo, if_neg h1, List.map_cons, ih, List.mem_cons, hne,
          false_or]
        split_ifs <;> simp

/-- Membership after a Go-map write. -/
theorem mem_insertGo {α : Type} (m : List (String × α)) (k : String) (v : α)
    (p : String × α) (hp : p ∈ insertGo m k v) : p ∈ m ∨ p = (k, v) := by
  induction m with
  | nil => simpa [insertGo] using hp
  | cons hd tl ih =>
      obtain ⟨k₁, v₁⟩ := hd
      by_cases h1 : k₁ = k
      · subst h1
        simp only [insertGo, if_pos rfl, List.mem_cons, if_true] at hp
        rcases hp with h | h
        · exact Or.inr h
        · exact Or.inl (List.mem_cons_of_mem _ h)
      · simp only [insertGo, if_neg h1, List.mem_cons] at hp
        rcases hp with h | h
        · exact Or.inl (h ▸ List.mem_cons_self _ _)
        · rcases ih h with h' | h'
          · exact Or.inl (List.mem_cons_of_mem _ h')
          · exact Or.inr h'

/-- Go-map insertion preserves the endpoint-map invariant when the inserted
value is stored under its own key. -/
theorem wf_insertGo (m : List (String × Endpoint)) (e : Endpoint)
    (hwf : WfEndpointMap m) : WfEndpointMap (insertGo m (endpointKey e) e) := by
  obtain ⟨hkeys, hnd⟩ := hwf
  constructor
  · intro p hp
    rcases mem_insertGo m (endpointKey e) e p hp with h | h
    · exact hkeys p h
    · subst h; rfl
  · rw [map_fst_insertGo]
    split_ifs with hin
    · exact hnd
    · simp only [List.nodup_append, List.nodup_cons, List.nodup_nil]
      exact ⟨hnd, by simp, by simpa using hin⟩

/-- Fold-built endpoint maps satisfy the invariant. -/
theorem wf_foldIns (es : List Endpoint) (m : List (String × Endpoint))
    (hwf : WfEndpointMap m) :
    WfEndpointMap (es.foldl (fun m e => insertGo m (endpointKey e) e) m) := by
  induction es generalizing m with
  | nil => exact hwf
  | cons e rest ih => exact ih _ (wf_insertGo m e hwf)

/-- Reading the endpoint list back out of a well-formed map is, key-wise, the
map itself. -/
theorem findLastByKey_map_snd (m : List (String × Endpoint))
    (hwf : WfEndpointMap m) (k : String) :
    findLastByKey (m.map Prod.snd) k = lookupGo m k := by
  induction m with
  | nil => rfl
  | cons hd tl ih =>
      obtain ⟨k₀, e₀⟩ := hd
      obtain ⟨hkeys, hnd⟩ := hwf
      have hk₀ : endpointKey e₀ = k₀ := hkeys (k₀, e₀) (List.mem_cons_self _ _)
      simp only [List.map_cons, List.nodup_cons] at hnd
      have htl : findLastByKey (tl.map Prod.snd) k = lookupGo tl k :=
        ih ⟨fun p hp => hkeys p (List.mem_cons_of_mem _ hp), hnd.2⟩
      rw [List.map_cons, findLastByKey_cons, htl]
      simp only [lookupGo]
      by_cases hq : k₀ = k
      · subst hq
        have hnone : lookupGo tl k₀ = none := lookupGo_eq_none tl k₀ hnd.1
        simp [hnone, hk₀]
      · have hb : (endpointKey e₀ == k) = false := by simp [hk₀, hq]
        simp only [hb, Bool.false_eq_true, if_false, if_neg hq]
        cases lookupGo tl k <;> rfl

/-- Claim C5: merging an API with itself reproduces it — the base URL and the
auth type are unchanged, and for every `"<METHOD>:<path>"` key the merged
endpoint list holds exactly the endpoint the original list holds under that
key (the claim's order-independent, key-set-plus-field-values equality). -/
theorem c5_merge_idempotent (X : API) :
    (mergeWithExisting X X).baseURL = X.baseURL
    ∧ (mergeWithExisting X X).authType = X.authType
    ∧ (∀ k, findLastByKey (mergeWithExisting X X).endpoints k =
        findLastByKey X.endpoints k)
    ∧ (∀ k, (findLastByKey (mergeWithExisting X X).endpoints k).isSome =
        (findLastByKey X.endpoints k).isSome) := by
  have hbase : (mergeWithExisting X X).baseURL = X.baseURL := by
    simp only [mergeWithExisting]
    split_ifs <;> rfl
  have hauth : (mergeWithExisting X X).authType = X.authType := by
    simp only [mergeWithExisting]
    split_ifs <;> rfl
  have hend : ∀ k, findLastByKey (mergeWithExisting X X).endpoints k =
      findLastByKey X.endpoints k := by
    intro k
    have hwfnil : WfEndpointMap ([] : List (String × Endpoint)) := ⟨by simp, by simp⟩
    have hw1 := wf_foldIns X.endpoints [] hwfnil
    have hw2 := wf_foldIns X.endpoints _ hw1
    have hep : (mergeWithExisting X X).endpoints =
        ((X.endpoints.foldl (fun m e => insertGo m (endpointKey e) e)
          (X.endpoints.foldl (fun m e => insertGo m (endpointKey e) e) [])).map
            Prod.snd) := rfl
    rw [hep, findLastByKey_map_snd _ hw2 k, lookupGo_foldIns, lookupGo_foldIns]
    cases findLastByKey X.endpoints k <;> rfl
  exact ⟨hbase, hauth, hend, fun k => congrArg Option.isSome (hend k)⟩

/-- Claim C6: merge deduplicates by the `"<METHOD>:<path>"` key and the
imported endpoint always wins on collision — whenever the imported API has an
endpoint under a key, the merged endpoint list holds exactly the imported
API's endpoint under that key. -/
theorem c6_merge_imported_wins (existingAPI importedAPI : API) (k : String)
    (h : (findLastByKey importedAPI.endpoints k).isSome = true) :
    findLastByKey (mergeWithExisting existingAPI importedAPI).endpoints k =
      findLastByKey importedAPI.endpoints k := by
  have hwfnil : WfEndpointMap ([] : List (String × Endpoint)) := ⟨by simp, by simp⟩
  have hw1 := wf_foldIns existingAPI.endpoints [] hwfnil
  have hw2 := wf_foldIns importedAPI.endpoints _ hw1
  have hep : (mergeWithExisting existingAPI importedAPI).endpoints =
      ((importedAPI.endpoints.foldl (fun m e => insertGo m (endpointKey e) e)
        (existingAPI.endpoints.foldl (fun m e => insertGo m (endpointKey e) e)
          [])).map Prod.snd) := rfl
  rw [hep, findLastByKey_map_snd _ hw2 k, lookupGo_foldIns]
  cases hfd : findLastByKey importedAPI.endpoints k with
  | some e => rfl
  | none => rw [hfd] at h; cases h

/-- The GET /a endpoint described as "old" (C6 witness data). -/
def exEndpointOld : Endpoint :=
  { path := "/a", method := "GET", description := "old", auth := false,
    request := none, response := none, errors := [] }

/-- The GET /a endpoint described as "new" (C6 witness data). -/
def exEndpointNew : Endpoint :=
  { path := "/a", method := "GET", description := "new", auth := false,
    request := none, response := none, errors := [] }

/-- The pre-existing API of the C6 witness: GET /a described as "old". -/
def exExistingAPI : API :=
  { baseURL := "/api/v1", authType := "none", endpoints := [exEndpointOld] }

/-- The imported API of the C6 witness: GET /a described as "new". -/
def exImportedAPI : API :=
  { baseURL := "/api/v1", authType := "none", endpoints := [exEndpointNew] }

/-- Witness for C6: with an existing GET /a ("old") and an imported GET /a
("new"), the merged GET /a carries the imported description. -/
theorem c6_witness :
    (findLastByKey (mergeWithExisting exExistingAPI exImportedAPI).endpoints
        "GET:/a").map Endpoint.description = some "new" := by
  have h := c6_merge_imported_wins exExistingAPI exImportedAPI "GET:/a" (by decide)
  rw [h]
  decide

/-! ## Lemmas for the exporter claims -/

/-- Whether a dynamic descriptor value is a string (the `def.(string)`
assertion of buildSchema). -/
def isStringDesc (v : GoVal) : Bool :=
  match v with
  | GoVal.vstr _ => true
  | _ => false

/-- Drop the non-string descriptors of a field map. -/
def stringDescsOnly (b : List (String × GoVal)) : List (String × GoVal) :=
  b.filter fun fd => isStringDesc fd.2

/-- An endpoint with the non-string descriptors dropped from both bodies. -/
def filterEndpointBodies (e : Endpoint) : Endpoint :=
  { e with
    request := e.request.map fun r => { r with body := r.body.map stringDescsOnly },
    response := e.response.map fun r => { r with body := r.body.map stringDescsOnly } }

/-- An API with the non-string descriptors dropped from every endpoint body. -/
def filterAPIBodies (api : API) : API :=
  { api with endpoints := api.endpoints.map filterEndpointBodies }

/-- The schema fold ignores non-string descriptors. -/
theorem foldl_buildSchemaStep_filter (b : List (String × GoVal))
    (acc : List (String × GoVal) × List String) :
    (stringDescsOnly b).foldl buildSchemaStep acc = b.foldl buildSchemaStep acc := by
  induction b generalizing acc with
  | nil => rfl
  | cons fd rest ih =>
      obtain ⟨n, v⟩ := fd
      cases v <;>
        simp [stringDescsOnly, isStringDesc, buildSchemaStep, ih,
          List.filter_cons] <;>
        exact ih _

/-- `buildSchema` is unchanged by dropping the non-string descriptors. -/
theorem buildSchema_filter (b : List (String × GoVal)) :
    buildSchema (stringDescsOnly b) = buildSchema b := by
  unfold buildSchema
  rw [foldl_buildSchemaStep_filter]

/-- `buildResponses` is unchanged by dropping non-string descriptors. -/
theorem buildResponses_filter (e : Endpoint) :
    buildResponses (filterEndpointBodies e) = buildResponses e := by
  unfold buildResponses filterEndpointBodies
  cases hresp : e.response with
  | none => simp
  | some r =>
      cases hb : r.body with
      | none => simp [hb]
      | some b => simp [hb, buildSchema_filter]

/-- The exported operation is unchanged by dropping non-string descriptors. -/
theorem mkExportedOp_filter (e : Endpoint) :
    mkExportedOp (filterEndpointBodies e) = mkExportedOp e := by
  have hbr := buildResponses_filter e
  unfold mkExportedOp
  rw [hbr]
  cases hreq : e.request with
  | none => simp [filterEndpointBodies, hreq]
  | some req =>
      cases hb : req.body with
      | none => simp [filterEndpointBodies, hreq, hb]
      | some b =>
          simp [filterEndpointBodies, hreq, hb, buildRequestBody,
            buildSchema_filter]

/-- Claim C9: the exporters are total — every API renders to an OpenAPI
document, a Markdown string and a Postman collection — and a field descriptor
that is not a string is silently skipped when building JSON-schema
properties: the schema, and with it the whole OpenAPI export, is unchanged
when the malformed descriptors are removed, rather than any error being
raised. -/
theorem c9_exporters_total_and_skip :
    (∀ fields, buildSchema (stringDescsOnly fields) = buildSchema fields)
    ∧ (∀ api, exportOpenAPI (filterAPIBodies api) = exportOpenAPI api)
    ∧ (∀ api, ∃ doc : OpenAPIDoc, exportOpenAPI api = doc)
    ∧ (∀ api, ∃ s : String, exportMarkdown api = s)
    ∧ (∀ api, ∃ items : List PostmanExportItem, exportPostman api = items) := by
  refine ⟨buildSchema_filter, ?_, fun api => ⟨_, rfl⟩, fun api => ⟨_, rfl⟩,
    fun api => ⟨_, rfl⟩⟩
  intro api
  unfold exportOpenAPI filterAPIBodies
  simp only
  congr 1
  rw [List.foldl_map]
  apply List.foldl_ext
  intro acc e _
  unfold exportOpenAPIStep
  rw [mkExportedOp_filter]
  rfl

/-! ## The OpenAPI round trip (claim C1)

The data-model side conditions under which the round trip is stated: methods
are uppercase canonical HTTP verbs (spec section 3), `(method, path)` keys are
unique (the endpoint list is treated as a set keyed by method+path), Go field
maps have unique keys, and — per the claim — descriptors carry no validation
hint, i.e. they are the canonical `"<type>, required|optional"` strings. -/

/-- The uppercase canonical HTTP verbs of the data model. -/
def httpVerbs : List String :=
  ["GET", "POST", "PUT", "DELETE", "PATCH", "HEAD", "OPTIONS", "TRACE", "CONNECT"]

/-- The lower-cased verbs, as they appear as method keys in an exported
document. -/
def lowerVerbs : List String :=
  httpVerbs.map goToLower

/-- The nine type tags of a field descriptor (spec section 3). -/
def descTags : List String :=
  ["string", "integer", "number", "boolean", "uuid", "datetime", "object",
   "array", "file"]

/-- A canonical hint-free descriptor: `"<type>, required|optional"` for one of
the nine tags. -/
def isCanonicalDesc (v : GoVal) : Bool :=
  match v with
  | GoVal.vstr s =>
      descTags.any fun t => s == t ++ ", required" || s == t ++ ", optional"
  | _ => false

/-- The type tag of a descriptor as the exporter reads it: the trimmed head of
the comma split. -/
def descTag (v : GoVal) : String :=
  match v with
  | GoVal.vstr s => goTrimSpace ((goSplit s ',').headD "")
  | _ => ""

/-- Whether the exporter reads the descriptor as required: some trimmed tail
part of the comma split equals "required". -/
def descRequired (v : GoVal) : Bool :=
  match v with
  | GoVal.vstr s =>
      ((goSplit s ',').drop 1).any fun part => goTrimSpace part == "required"
  | _ => false

/-- What one type tag becomes after an OpenAPI export followed by an import:
the importer's reading of the schema object the exporter writes for it. -/
def roundTag (t : String) : String :=
  OpenAPIImporter.convertSchemaType
    (some (GoVal.vobj [("type", GoVal.vstr (mapType t))]))

/-- What one descriptor value becomes after the OpenAPI round trip. -/
def roundDesc (v : GoVal) : GoVal :=
  GoVal.vstr (roundTag (descTag v) ++
    (if descRequired v then ", required" else ", optional"))

/-- First endpoint of a list under a `(method, path)` key. -/
def epFind (es : List Endpoint) (m p : String) : Option Endpoint :=
  es.find? fun e => e.method == m && e.path == p

/-- The request-body field map of an endpoint, when present. -/
def reqBody (e : Endpoint) : Option (List (String × GoVal)) :=
  e.request.bind fun r => r.body

/-- Nested lookup in a `paths[path][method]` map. -/
def lookup2 (paths : List (String × List (String × OAOperation)))
    (p m : String) : Option OAOperation :=
  (lookupGo paths p).bind fun inner => lookupGo inner m

/-- The last endpoint of a list under a `(path, lower-cased method)` pair: the
operation an exported paths map holds there. -/
def findLastPM (es : List Endpoint) (p m : String) : Option Endpoint :=
  es.reverse.find? fun e => e.path == p && goToLower e.method == m

/-- The properties map `buildSchema` produces for a canonical field map. -/
def schemaPropsOf (b : List (String × GoVal)) : List (String × GoVal) :=
  b.map fun fd =>
    (fd.1, GoVal.vobj [("type", GoVal.vstr (mapType (descTag fd.2)))])

/-- The required-name list `buildSchema` produces for a canonical field map. -/
def reqNamesOf (b : List (String × GoVal)) : List String :=
  b.filterMap fun fd => if descRequired fd.2 then some fd.1 else none

/-- Writing a fresh key appends the binding. -/
theorem insertGo_append {α : Type} (m : List (String × α)) (k : String) (v : α)
    (h : k ∉ m.map Prod.fst) : insertGo m k v = m ++ [(k, v)] := by
  induction m with
  | nil => rfl
  | cons hd tl ih =>
      obtain ⟨k₀, v₀⟩ := hd
      simp only [List.map_cons, List.mem_cons] at h
      push_neg at h
      have hne : ¬k₀ = k := fun he => h.1 he.symm
      simp only [insertGo, if_neg hne, List.cons_append, List.cons.injEq,
        true_and]
      exact ih h.2

/-- A successful lookup is a member. -/
theorem lookupGo_mem {α : Type} (m : List (String × α)) (k : String) (v : α)
    (h : lookupGo m k = some v) : (k, v) ∈ m := by
  induction m with
  | nil => cases h
  | cons hd tl ih =>
      obtain ⟨k₀, v₀⟩ := hd
      by_cases hk : k₀ = k
      · subst hk
        simp only [lookupGo, if_pos rfl, if_true, Option.some.injEq] at h
        subst h
        exact List.mem_cons_self _ _
      · simp only [lookupGo, if_neg hk] at h
        exact List.mem_cons_of_mem _ (ih h)

/-- Lookup through a key-preserving value map. -/
theorem lookupGo_map_values {α β : Type} (l : List (String × α)) (g : α → β)
    (n : String) :
    lookupGo (l.map fun p => (p.1, g p.2)) n = (lookupGo l n).map g := by
  induction l with
  | nil => rfl
  | cons hd tl ih =>
      obtain ⟨k, v⟩ := hd
      by_cases hk : k = n
      · subst hk; simp [lookupGo]
      · simp [lookupGo, if_neg hk, ih]

/-- Folding key-distinct pairs into a Go map by `insertGo` appends them in
order. -/
theorem foldl_insertGo_map {α β : Type} (l : List (String × α))
    (g : String × α → β) (acc : List (String × β))
    (hnd : (l.map Prod.fst).Nodup)
    (hdisj : ∀ n ∈ l.map Prod.fst, n ∉ acc.map Prod.fst) :
    l.foldl (fun m p => insertGo m p.1 (g p)) acc =
      acc ++ l.map fun p => (p.1, g p) := by
  induction l generalizing acc with
  | nil => simp
  | cons hd tl ih =>
      obtain ⟨n, v⟩ := hd
      simp only [List.map_cons, List.nodup_cons] at hnd
      have hn : n ∉ acc.map Prod.fst :=
        hdisj n (by simp)
      simp only [List.foldl_cons]
      rw [insertGo_append acc n (g (n, v)) hn]
      rw [ih (acc ++ [(n, g (n, v))]) hnd.2 ?_]
      · simp
      · intro m hm
        simp only [List.map_append, List.mem_append, List.map_cons,
          List.map_nil, List.mem_singleton]
        push_neg
        constructor
        · exact hdisj m (by simp [hm])
        · intro he; subst he; exact hnd.1 hm

/-- A canonical descriptor is one of the 18 concrete strings. -/
theorem canonicalDesc_shape (v : GoVal) (h : isCanonicalDesc v = true) :
    ∃ t, t ∈ descTags ∧
      (v = GoVal.vstr (t ++ ", required") ∨ v = GoVal.vstr (t ++ ", optional")) := by
  cases v with
  | vstr s =>
      simp only [isCanonicalDesc, List.any_eq_true, Bool.or_eq_true,
        beq_iff_eq] at h
      obtain ⟨t, ht, h⟩ := h
      exact ⟨t, ht, by rcases h with h | h <;> simp [h]⟩
  | vnull => cases h
  | vbool b => cases h
  | vnum q => cases h
  | vint n => cases h
  | varr xs => cases h
  | vobj fs => cases h

/-- The schema loop body on a canonical descriptor: one property under the
mapped tag, and the field name listed as required exactly when the descriptor
says so. -/
theorem buildSchemaStep_canonical (n : String) (v : GoVal)
    (acc : List (String × GoVal) × List String) (h : isCanonicalDesc v = true) :
    buildSchemaStep acc (n, v) =
      (insertGo acc.1 n (GoVal.vobj [("type", GoVal.vstr (mapType (descTag v)))]),
       acc.2 ++ (if descRequired v then [n] else [])) := by
  obtain ⟨t, ht, hv⟩ := canonicalDesc_shape v h
  simp only [descTags, List.mem_cons, List.not_mem_nil, or_false] at ht
  rcases ht with rfl | rfl | rfl | rfl | rfl | rfl | rfl | rfl | rfl <;>
    rcases hv with rfl | rfl <;> rfl

/-- The schema fold over a canonical field map, in closed form. -/
theorem foldl_buildSchemaStep_canonical (b : List (String × GoVal))
    (acc : List (String × GoVal) × List String)
    (hnd : (b.map Prod.fst).Nodup)
    (hdisj : ∀ n ∈ b.map Prod.fst, n ∉ acc.1.map Prod.fst)
    (hcan : ∀ fd ∈ b, isCanonicalDesc fd.2 = true) :
    b.foldl buildSchemaStep acc =
      (acc.1 ++ schemaPropsOf b, acc.2 ++ reqNamesOf b) := by
  induction b generalizing acc with
  | nil => simp [schemaPropsOf, reqNamesOf]
  | cons fd rest ih =>
      obtain ⟨n, v⟩ := fd
      simp only [List.map_cons, List.nodup_cons] at hnd
      have hcv : isCanonicalDesc v = true := hcan (n, v) (List.mem_cons_self _ _)
      simp only [List.foldl_cons]
      rw [buildSchemaStep_canonical n v acc hcv]
      rw [insertGo_append acc.1 n _ (hdisj n (by simp))]
      rw [ih _ hnd.2 ?_ (fun fd hfd => hcan fd (List.mem_cons_of_mem _ hfd))]
      · simp only [schemaPropsOf, reqNamesOf, List.map_cons, List.filterMap_cons]
        cases hreq : descRequired v <;> simp
      · intro m hm
        simp only [List.map_append, List.mem_append, List.map_cons,
          List.map_nil, List.mem_singleton]
        push_neg
        exact ⟨hdisj m (by simp [hm]), fun he => absurd (he ▸ hm) hnd.1⟩

/-- Under unique field names a key determines its value. -/
theorem mem_value_unique {α : Type} (b : List (String × α))
    (hnd : (b.map Prod.fst).Nodup) (n : String) (v w : α)
    (h1 : (n, v) ∈ b) (h2 : (n, w) ∈ b) : v = w := by
  induction b with
  | nil => cases h1
  | cons fd rest ih =>
      obtain ⟨k, x⟩ := fd
      simp only [List.map_cons, List.nodup_cons] at hnd
      rcases List.mem_cons.mp h1 with g1 | g1 <;> rcases List.mem_cons.mp h2 with g2 | g2
      · injection g1 with e1 e1'
        injection g2 with e2 e2'
        rw [e1', e2']
      · injection g1 with e1 e1'
        subst e1
        exact absurd (List.mem_map_of_mem Prod.fst g2) hnd.1
      · injection g2 with e2 e2'
        subst e2
        exact absurd (List.mem_map_of_mem Prod.fst g1) hnd.1
      · exact ih hnd.2 g1 g2

/-- Required names come from required entries: under unique field names, name
membership in the required list is the entry's own required flag. -/
theorem reqNamesOf_contains (b : List (String × GoVal)) (n : String) (v : GoVal)
    (hnd : (b.map Prod.fst).Nodup) (hmem : (n, v) ∈ b) :
    (reqNamesOf b).contains n = descRequired v := by
  have hiff : n ∈ reqNamesOf b ↔ descRequired v = true := by
    constructor
    · intro hn
      simp only [reqNamesOf, List.mem_filterMap] at hn
      obtain ⟨fd, hfd, hif⟩ := hn
      split_ifs at hif with hr
      injection hif with he
      have hfd' : (n, fd.2) ∈ b := by rw [← he]; exact hfd
      have hv : fd.2 = v := mem_value_unique b hnd n fd.2 v hfd' hmem
      rw [← hv]
      exact hr
    · intro hr
      simp only [reqNamesOf, List.mem_filterMap]
      exact ⟨(n, v), hmem, by rw [if_pos hr]⟩
  cases hreq : descRequired v with
  | true =>
      simp only [List.contains, List.elem_eq_mem, decide_eq_true_iff]
      exact hiff.mpr hreq
  | false =>
      simp only [List.contains, List.elem_eq_mem, decide_eq_false_iff_not]
      intro hn
      rw [hiff.mp hn] at hreq
      cases hreq

/-- Unwrapping a list of wrapped strings. -/
theorem filterMap_vstr (l : List String) :
    (l.map GoVal.vstr).filterMap
      (fun v => match v with | GoVal.vstr s => some s | _ => none) = l := by
  induction l with
  | nil => rfl
  | cons s rest ih => simp [List.filterMap_cons, ih]

/-- The names of the produced properties are the field names. -/
theorem schemaPropsOf_names (b : List (String × GoVal)) :
    (schemaPropsOf b).map Prod.fst = b.map Prod.fst := by
  simp [schemaPropsOf, List.map_map, Function.comp]

/-- The schema `buildSchema` produces for a canonical field map with unique
names, in closed form. -/
theorem buildSchema_canonical (b : List (String × GoVal))
    (hnd : (b.map Prod.fst).Nodup)
    (hcan : ∀ fd ∈ b, isCanonicalDesc fd.2 = true) :
    buildSchema b =
      GoVal.vobj [("type", GoVal.vstr "object"),
                  ("properties", GoVal.vobj (schemaPropsOf b)),
                  ("required", GoVal.varr ((reqNamesOf b).map GoVal.vstr))] := by
  have hfold := foldl_buildSchemaStep_canonical b ([], []) hnd (by simp) hcan
  simp only [buildSchema, hfold, List.nil_append]

/-- Importing the schema the exporter wrote for a canonical field map yields
each field name with the round-tripped tag and its own requiredness. -/
theorem parse_export_schema (b : List (String × GoVal))
    (hnd : (b.map Prod.fst).Nodup)
    (hcan : ∀ fd ∈ b, isCanonicalDesc fd.2 = true) :
    OpenAPIImporter.parseSchemaProperties (some (buildSchema b)) =
      b.map fun fd => (fd.1, roundTag (descTag fd.2) ++
        (if descRequired fd.2 then ", required" else ", optional")) := by
  rw [buildSchema_canonical b hnd hcan]
  have hp : lookupGo
      [("type", GoVal.vstr "object"),
       ("properties", GoVal.vobj (schemaPropsOf b)),
       ("required", GoVal.varr ((reqNamesOf b).map GoVal.vstr))] "properties"
      = some (GoVal.vobj (schemaPropsOf b)) := by simp [lookupGo]
  have hr : lookupGo
      [("type", GoVal.vstr "object"),
       ("properties", GoVal.vobj (schemaPropsOf b)),
       ("required", GoVal.varr ((reqNamesOf b).map GoVal.vstr))] "required"
      = some (GoVal.varr ((reqNamesOf b).map GoVal.vstr)) := by simp [lookupGo]
  simp only [OpenAPIImporter.parseSchemaProperties, hp, hr, filterMap_vstr]
  rw [foldl_insertGo_map (schemaPropsOf b) _ []
    (by rw [schemaPropsOf_names]; exact hnd) (by simp)]
  simp only [List.nil_append, schemaPropsOf, List.map_map]
  apply List.map_congr_left
  intro fd hfd
  simp only [Function.comp]
  congr 1
  rw [reqNamesOf_contains b fd.1 fd.2 hnd hfd]
  cases hreq : descRequired fd.2 <;> simp [roundTag, hreq]

/-- On the single-entry JSON content the exporter writes, field extraction is
exactly schema-property parsing (the JSON media type is found; the
empty-fields fallback re-reads the same entry). -/
theorem extractSchemaFields_export (s : Option GoVal) :
    OpenAPIImporter.extractSchemaFields [("application/json", ⟨s⟩)] =
      OpenAPIImporter.parseSchemaProperties s := by
  have hpa : strContains "application/json" "json" = true := by decide
  have hf : List.find? (fun p => strContains p.1 "json")
      [(("application/json" : String), (⟨s⟩ : OAMediaType))] =
      some ("application/json", ⟨s⟩) :=
    List.find?_cons_of_pos [] hpa
  simp only [OpenAPIImporter.extractSchemaFields, hf]
  split_ifs <;> rfl

/-- The auth flag survives the export-import round trip. -/
theorem convertOperation_auth_of_export (P M : String) (e : Endpoint) :
    (OpenAPIImporter.convertOperation P M (mkExportedOp e)).auth = e.auth := by
  cases hauth : e.auth <;>
    simp [OpenAPIImporter.convertOperation, mkExportedOp, hauth]

/-- The request body that comes back from the round trip of one endpoint with
a canonical body: same names, round-tripped descriptors. -/
theorem convertOperation_body_of_export (P M : String) (e : Endpoint)
    (r : EndpointRequest) (b : List (String × GoVal))
    (hreq : e.request = some r) (hb : r.body = some b)
    (hnd : (b.map Prod.fst).Nodup)
    (hcan : ∀ fd ∈ b, isCanonicalDesc fd.2 = true) :
    ∃ b', reqBody (OpenAPIImporter.convertOperation P M (mkExportedOp e)) = some b'
      ∧ ∀ n, lookupGo b' n = (lookupGo b n).map roundDesc := by
  have hop : (mkExportedOp e).requestBody = some (buildRequestBody r) := by
    simp [mkExportedOp, hreq, hb]
  have hcontent : (buildRequestBody r).content =
      [("application/json", ⟨some (buildSchema b)⟩)] := by
    simp [buildRequestBody, hb]
  have hfields : OpenAPIImporter.extractSchemaFields (buildRequestBody r).content =
      b.map fun fd => (fd.1, roundTag (descTag fd.2) ++
        (if descRequired fd.2 then ", required" else ", optional")) := by
    rw [hcontent, extractSchemaFields_export, parse_export_schema b hnd hcan]
  refine ⟨b.map fun fd => (fd.1, roundDesc fd.2), ?_, ?_⟩
  · simp only [reqBody, OpenAPIImporter.convertOperation, hop, Option.isSome_some,
      Bool.true_or, if_true, Option.some_bind]
    simp only [hfields]
    rw [foldl_insertGo_map _ _ []
      (by simp only [List.map_map]
          have : (b.map fun fd => (fd.1, roundTag (descTag fd.2) ++
              (if descRequired fd.2 then ", required" else ", optional"))).map
              Prod.fst = b.map Prod.fst := by
            simp [List.map_map, Function.comp]
          rw [List.map_map] at this
          exact this ▸ hnd)
      (by simp)]
    simp only [List.nil_append, List.map_map]
    apply congrArg
    apply List.map_congr_left
    intro fd _
    simp [Function.comp, roundDesc]
  · intro n
    have : (b.map fun fd => (fd.1, roundDesc fd.2)) =
        b.map fun p => (p.1, roundDesc p.2) := rfl
    rw [this, lookupGo_map_values]

/-- Lower-casing then upper-casing restores an uppercase canonical verb. -/
theorem upper_lower_verb {M : String} (hM : M ∈ httpVerbs) :
    goToUpper (goToLower M) = M := by
  simp only [httpVerbs, List.mem_cons, List.not_mem_nil, or_false] at hM
  rcases hM with rfl | rfl | rfl | rfl | rfl | rfl | rfl | rfl | rfl <;> decide

/-- The lower-cased verb of a canonical verb is a lower verb. -/
theorem lower_verb_mem {M : String} (hM : M ∈ httpVerbs) :
    goToLower M ∈ lowerVerbs := by
  simp only [httpVerbs, List.mem_cons, List.not_mem_nil, or_false] at hM
  rcases hM with rfl | rfl | rfl | rfl | rfl | rfl | rfl | rfl | rfl <;> decide

/-- Upper-casing a lower verb gives a canonical verb. -/
theorem upper_verb_mem {m : String} (hm : m ∈ lowerVerbs) :
    goToUpper m ∈ httpVerbs := by
  simp only [lowerVerbs, httpVerbs, List.map_cons, List.map_nil, List.mem_cons,
    List.not_mem_nil, or_false] at hm
  rcases hm with rfl | rfl | rfl | rfl | rfl | rfl | rfl | rfl | rfl <;> decide

/-- Matching an upper-cased lower verb against a canonical verb is matching
the lower verb against the lower-cased canonical verb. -/
theorem beq_upper_eq {M m : String} (hM : M ∈ httpVerbs) (hm : m ∈ lowerVerbs) :
    (goToUpper m == M) = (m == goToLower M) := by
  simp only [httpVerbs, List.mem_cons, List.not_mem_nil, or_false] at hM
  simp only [lowerVerbs, httpVerbs, List.map_cons, List.map_nil, List.mem_cons,
    List.not_mem_nil, or_false] at hm
  rcases hM with rfl | rfl | rfl | rfl | rfl | rfl | rfl | rfl | rfl <;>
    rcases hm with rfl | rfl | rfl | rfl | rfl | rfl | rfl | rfl | rfl <;> decide

/-- Lower-casing is injective on the canonical verbs, as a beq equation. -/
theorem beq_lower_eq {a M : String} (ha : a ∈ httpVerbs) (hM : M ∈ httpVerbs) :
    (goToLower a == goToLower M) = (a == M) := by
  simp only [httpVerbs, List.mem_cons, List.not_mem_nil, or_false] at ha hM
  rcases ha with rfl | rfl | rfl | rfl | rfl | rfl | rfl | rfl | rfl <;>
    rcases hM with rfl | rfl | rfl | rfl | rfl | rfl | rfl | rfl | rfl <;> decide

/-- One export step, read back through the nested paths-map lookup. -/
theorem lookup2_step (acc : List (String × List (String × OAOperation)))
    (e : Endpoint) (p m : String) :
    lookup2 (exportOpenAPIStep acc e) p m =
      if e.path = p ∧ goToLower e.method = m then some (mkExportedOp e)
      else lookup2 acc p m := by
  unfold exportOpenAPIStep lookup2
  rw [lookupGo_insertGo]
  by_cases hp : e.path = p
  · rw [if_pos hp, Option.some_bind, lookupGo_insertGo]
    by_cases hm : goToLower e.method = m
    · rw [if_pos hm, if_pos ⟨hp, hm⟩]
    · rw [if_neg hm, if_neg (fun h => hm h.2)]
      subst hp
      cases hacc : lookupGo acc e.path <;> simp [hacc, lookupGo]
  · rw [if_neg hp, if_neg (fun h => hp h.1)]

/-- Splitting off the head of the list under `findLastPM`. -/
theorem findLastPM_cons (e : Endpoint) (rest : List Endpoint) (p m : String) :
    findLastPM (e :: rest) p m =
      Option.or (findLastPM rest p m)
        (if e.path == p && goToLower e.method == m then some e else none) := by
  simp only [findLastPM, List.reverse_cons, List.find?_append]
  congr 1
  cases h : (e.path == p && goToLower e.method == m) <;>
    simp [List.find?_cons, h]

/-- The export fold, read back through the nested paths-map lookup: the last
endpoint under the `(path, lower method)` pair wins, else the seed map
answers. -/
theorem lookup2_fold (es : List Endpoint)
    (acc : List (String × List (String × OAOperation))) (p m : String) :
    lookup2 (es.foldl exportOpenAPIStep acc) p m =
      Option.or ((findLastPM es p m).map mkExportedOp) (lookup2 acc p m) := by
  induction es generalizing acc with
  | nil => simp [findLastPM]
  | cons e rest ih =>
      simp only [List.foldl_cons]
      rw [ih, lookup2_step, findLastPM_cons]
      cases hfd : findLastPM rest p m with
      | some e' => simp
      | none =>
          by_cases hp : e.path = p ∧ goToLower e.method = m
          · have hb : (e.path == p && goToLower e.method == m) = true := by
              simp [hp.1, hp.2]
            simp [hb, hp]
          · have hb : (e.path == p && goToLower e.method == m) = false := by
              rcases not_and_or.mp hp with h | h <;> simp [h]
            simp [hb, if_neg hp]

/-- The invariant of the exported paths map: unique path keys, and per path a
method map with unique lower-verb keys. -/
def PathsInv (paths : List (String × List (String × OAOperation))) : Prop :=
  (paths.map Prod.fst).Nodup ∧
  ∀ pi ∈ paths, (pi.2.map Prod.fst).Nodup ∧ ∀ mo ∈ pi.2, mo.1 ∈ lowerVerbs

/-- One export step preserves the paths-map invariant. -/
theorem pathsInv_step (acc : List (String × List (String × OAOperation)))
    (e : Endpoint) (hacc : PathsInv acc) (he : e.method ∈ httpVerbs) :
    PathsInv (exportOpenAPIStep acc e) := by
  obtain ⟨hnd, hinner⟩ := hacc
  have hInner : (((lookupGo acc e.path).getD []).map Prod.fst).Nodup ∧
      ∀ mo ∈ (lookupGo acc e.path).getD [], mo.1 ∈ lowerVerbs := by
    cases hacc2 : lookupGo acc e.path with
    | none => simp
    | some i =>
        simpa using hinner (e.path, i) (lookupGo_mem acc e.path i hacc2)
  constructor
  · rw [exportOpenAPIStep, map_fst_insertGo]
    split_ifs with hin
    · exact hnd
    · simp only [List.nodup_append, List.nodup_cons, List.nodup_nil]
      exact ⟨hnd, by simp, by simpa using hin⟩
  · intro pi hpi
    rcases mem_insertGo _ _ _ pi hpi with h | h
    · exact hinner pi h
    · subst h
      constructor
      · rw [map_fst_insertGo]
        split_ifs with hin
        · exact hInner.1
        · simp only [List.nodup_append, List.nodup_cons, List.nodup_nil]
          exact ⟨hInner.1, by simp, by simpa using hin⟩
      · intro mo hmo
        rcases mem_insertGo _ _ _ mo hmo with h2 | h2
        · exact hInner.2 mo h2
        · subst h2
          exact lower_verb_mem he

/-- The export fold builds an invariant-respecting paths map. -/
theorem pathsInv_fold (es : List Endpoint)
    (acc : List (String × List (String × OAOperation))) (hacc : PathsInv acc)
    (hverbs : ∀ e ∈ es, e.method ∈ httpVerbs) :
    PathsInv (es.foldl exportOpenAPIStep acc) := by
  induction es generalizing acc with
  | nil => exact hacc
  | cons e rest ih =>
      exact ih _ (pathsInv_step acc e hacc (hverbs e (List.mem_cons_self _ _)))
        (fun x hx => hverbs x (List.mem_cons_of_mem _ hx))

/-- Searching the operations imported from one path's method map: under the
invariant, the search key picks out the lower-cased method. -/
theorem epFind_inner (inner : List (String × OAOperation)) (p M : String)
    (hM : M ∈ httpVerbs) (hkeys : ∀ mo ∈ inner, mo.1 ∈ lowerVerbs) :
    (inner.map fun mo =>
        OpenAPIImporter.convertOperation p (goToUpper mo.1) mo.2).find?
      (fun e => e.method == M && e.path == p) =
      (lookupGo inner (goToLower M)).map
        fun op => OpenAPIImporter.convertOperation p M op := by
  induction inner with
  | nil => rfl
  | cons mo rest ih =>
      obtain ⟨m, op⟩ := mo
      have hm : m ∈ lowerVerbs := hkeys (m, op) (List.mem_cons_self _ _)
      have hpred : ((OpenAPIImporter.convertOperation p (goToUpper m) op).method == M
          && (OpenAPIImporter.convertOperation p (goToUpper m) op).path == p) =
          (m == goToLower M) := by
        have h1 : (OpenAPIImporter.convertOperation p (goToUpper m) op).method
            = goToUpper m := rfl
        have h2 : (OpenAPIImporter.convertOperation p (goToUpper m) op).path = p := rfl
        rw [h1, h2, beq_upper_eq hM hm]
        simp
      rw [List.map_cons]
      cases hmm : (m == goToLower M) with
      | true =>
          have hme : m = goToLower M := by simpa using hmm
          rw [List.find?_cons_of_pos _ (by rw [hpred]; exact hmm)]
          subst hme
          have hl : lookupGo ((goToLower M, op) :: rest) (goToLower M) = some op := by
            simp [lookupGo]
          rw [hl]
          simp [upper_lower_verb hM]
      | false =>
          rw [List.find?_cons_of_neg _ (by rw [hpred, hmm]; simp)]
          have hne : ¬m = goToLower M := by simpa using hmm
          have hl : lookupGo ((m, op) :: rest) (goToLower M) =
              lookupGo rest (goToLower M) := by
            simp [lookupGo, hne]
          rw [ih (fun x hx => hkeys x (List.mem_cons_of_mem _ hx)), hl]

/-- No imported endpoint of other paths answers to this path. -/
theorem epFind_flat_none (paths : List (String × List (String × OAOperation)))
    (P M : String) (hP : P ∉ paths.map Prod.fst) :
    (paths.flatMap fun pi => pi.2.map fun mo =>
        OpenAPIImporter.convertOperation pi.1 (goToUpper mo.1) mo.2).find?
      (fun e => e.method == M && e.path == P) = none := by
  rw [List.find?_eq_none]
  intro x hx
  simp only [List.mem_flatMap, List.mem_map] at hx
  obtain ⟨pi, hpi, mo, hmo, hx⟩ := hx
  subst hx
  have hpath : (OpenAPIImporter.convertOperation pi.1 (goToUpper mo.1) mo.2).path
      = pi.1 := rfl
  have hne : pi.1 ≠ P := fun he =>
    hP (he ▸ List.mem_map_of_mem Prod.fst hpi)
  simp [hpath, hne]

/-- Searching the imported endpoint list of an invariant-respecting paths map
is the nested map lookup at `(path, lower-cased method)`. -/
theorem epFind_import_paths (paths : List (String × List (String × OAOperation)))
    (hinv : PathsInv paths) (M P : String) (hM : M ∈ httpVerbs) :
    epFind (paths.flatMap fun pi => pi.2.map fun mo =>
        OpenAPIImporter.convertOperation pi.1 (goToUpper mo.1) mo.2) M P =
      (lookup2 paths P (goToLower M)).map
        fun op => OpenAPIImporter.convertOperation P M op := by
  induction paths with
  | nil => rfl
  | cons pi rest ih =>
      obtain ⟨p, inner⟩ := pi
      obtain ⟨hnd, hinner⟩ := hinv
      simp only [List.map_cons, List.nodup_cons] at hnd
      simp only [List.flatMap_cons]
      rw [epFind, List.find?_append]
      by_cases hp : p = P
      · subst hp
        have h1 := epFind_inner inner p M hM
          (hinner (p, inner) (List.mem_cons_self _ _)).2
        have h2 : (rest.flatMap fun pi => pi.2.map fun mo =>
            OpenAPIImporter.convertOperation pi.1 (goToUpper mo.1) mo.2).find?
            (fun e => e.method == M && e.path == p) = none :=
          epFind_flat_none rest p M hnd.1
        have hlp : lookupGo ((p, inner) :: rest) p = some inner := by
          simp [lookupGo]
        rw [h1, h2, lookup2, hlp, Option.some_bind]
        cases lookupGo inner (goToLower M) <;> rfl
      · have h1 : (inner.map fun mo =>
            OpenAPIImporter.convertOperation p (goToUpper mo.1) mo.2).find?
            (fun e => e.method == M && e.path == P) = none := by
          rw [List.find?_eq_none]
          intro x hx
          simp only [List.mem_map] at hx
          obtain ⟨mo, hmo, hx⟩ := hx
          subst hx
          simp [show (OpenAPIImporter.convertOperation p (goToUpper mo.1) mo.2).path
            = p from rfl, hp]
        rw [h1]
        have ih' := ih ⟨hnd.2, fun x hx => hinner x (List.mem_cons_of_mem _ hx)⟩
        rw [epFind] at ih'
        have hlp : lookupGo ((p, inner) :: rest) P = lookupGo rest P := by
          simp [lookupGo, hp]
        rw [ih']
        simp only [lookup2, hlp]
        cases ((lookupGo rest P).bind fun i => lookupGo i (goToLower M)) <;> rfl

/-- The last and the first endpoint under a key coincide when the
`(method, path)` keys are unique (methods canonical). -/
theorem findLastPM_eq_epFind (es : List Endpoint) (P M : String)
    (hkeys : (es.map fun e => (e.method, e.path)).Nodup)
    (hverbs : ∀ e ∈ es, e.method ∈ httpVerbs) (hM : M ∈ httpVerbs) :
    findLastPM es P (goToLower M) = epFind es M P := by
  induction es with
  | nil => rfl
  | cons e rest ih =>
      simp only [List.map_cons, List.nodup_cons] at hkeys
      have hev : e.method ∈ httpVerbs := hverbs e (List.mem_cons_self _ _)
      rw [findLastPM_cons]
      by_cases hmatch : e.method = M ∧ e.path = P
      · have hpred : (e.path == P && goToLower e.method == goToLower M) = true := by
          simp [hmatch.1, hmatch.2]
        have hfindpred : (e.method == M && e.path == P) = true := by
          simp [hmatch.1, hmatch.2]
        have hnone : findLastPM rest P (goToLower M) = none := by
          rw [findLastPM, List.find?_eq_none]
          intro x hx
          rw [List.mem_reverse] at hx
          intro hpx
          simp only [Bool.and_eq_true, beq_iff_eq] at hpx
          have hxM : x.method = M := by
            have hxv : x.method ∈ httpVerbs :=
              hverbs x (List.mem_cons_of_mem _ hx)
            have := beq_lower_eq hxv hM
            rw [show (goToLower x.method == goToLower M) = true by
              simp [hpx.2]] at this
            simpa using this.symm
          apply hkeys.1
          have : (x.method, x.path) = (e.method, e.path) := by
            rw [hxM, hpx.1, hmatch.1, hmatch.2]
          rw [← this]
          exact List.mem_map_of_mem _ hx
        have hfind : List.find? (fun x => x.method == M && x.path == P)
            (e :: rest) = some e := by
          simp only [List.find?_cons, hfindpred]
        rw [hnone, hpred, epFind, hfind]
        rfl
      · have hpred : (e.path == P && goToLower e.method == goToLower M) = false := by
          rw [Bool.and_eq_false_iff]
          by_cases hp : e.path = P
          · right
            rw [beq_lower_eq hev hM]
            simp only [beq_eq_false_iff_ne, ne_eq]
            intro hme
            exact hmatch ⟨hme, hp⟩
          · left; simp [hp]
        have hfindpred : (e.method == M && e.path == P) = false := by
          rw [Bool.and_eq_false_iff]
          by_cases hm : e.method = M
          · right
            simp only [beq_eq_false_iff_ne, ne_eq]
            intro hp
            exact hmatch ⟨hm, hp⟩
          · left; simp [hm]
        have hfind : List.find? (fun x => x.method == M && x.path == P)
            (e :: rest) = List.find? (fun x => x.method == M && x.path == P)
              rest := by
          simp only [List.find?_cons, hfindpred]
        rw [hpred, epFind, hfind]
        have := ih hkeys.2 (fun x hx => hverbs x (List.mem_cons_of_mem _ hx))
        rw [epFind] at this
        rw [← this]
        cases findLastPM rest P (goToLower M) <;> rfl

/-- The master round-trip equation: for a canonical-verb, unique-key API, the
imported export holds, under every `(method, path)` key, exactly the
import-conversion of the export of the original endpoint under that key. -/
theorem roundtrip_epFind (A : API)
    (hverbs : ∀ e ∈ A.endpoints, e.method ∈ httpVerbs)
    (hkeys : (A.endpoints.map fun e => (e.method, e.path)).Nodup)
    (M P : String) (hM : M ∈ httpVerbs) :
    epFind (OpenAPIImporter.importDoc (exportOpenAPI A)).endpoints M P =
      (epFind A.endpoints M P).map
        fun e => OpenAPIImporter.convertOperation P M (mkExportedOp e) := by
  have hinv : PathsInv (A.endpoints.foldl exportOpenAPIStep []) :=
    pathsInv_fold A.endpoints [] ⟨by simp, by simp⟩ hverbs
  have h1 : (OpenAPIImporter.importDoc (exportOpenAPI A)).endpoints =
      (A.endpoints.foldl exportOpenAPIStep []).flatMap fun pi =>
        pi.2.map fun mo =>
          OpenAPIImporter.convertOperation pi.1 (goToUpper mo.1) mo.2 := rfl
  rw [h1, epFind_import_paths _ hinv M P hM, lookup2_fold,
    show lookup2 [] P (goToLower M) = none from rfl]
  rw [findLastPM_eq_epFind A.endpoints P M hkeys hverbs hM]
  cases epFind A.endpoints M P <;> rfl

/-- Every endpoint the importer reads back from an export has a canonical
verb method. -/
theorem import_method_mem (A : API)
    (hverbs : ∀ e ∈ A.endpoints, e.method ∈ httpVerbs) :
    ∀ e' ∈ (OpenAPIImporter.importDoc (exportOpenAPI A)).endpoints,
      e'.method ∈ httpVerbs := by
  intro e' he'
  have hinv : PathsInv (A.endpoints.foldl exportOpenAPIStep []) :=
    pathsInv_fold A.endpoints [] ⟨by simp, by simp⟩ hverbs
  have h1 : (OpenAPIImporter.importDoc (exportOpenAPI A)).endpoints =
      (A.endpoints.foldl exportOpenAPIStep []).flatMap fun pi =>
        pi.2.map fun mo =>
          OpenAPIImporter.convertOperation pi.1 (goToUpper mo.1) mo.2 := rfl
  rw [h1] at he'
  simp only [List.mem_flatMap, List.mem_map] at he'
  obtain ⟨pi, hpi, mo, hmo, he'⟩ := he'
  subst he'
  exact upper_verb_mem ((hinv.2 pi hpi).2 mo hmo)

/-- There is no endpoint under a non-verb method key. -/
theorem epFind_none_of_no_verb (es : List Endpoint) (M P : String)
    (hverbs : ∀ e ∈ es, e.method ∈ httpVerbs) (hM : M ∉ httpVerbs) :
    epFind es M P = none := by
  rw [epFind, List.find?_eq_none]
  intro x hx
  simp only [Bool.and_eq_true, beq_iff_eq, not_and]
  intro hxm
  exact absurd (hxm ▸ hverbs x hx) hM

/-- Claim C1: importing the OpenAPI export of an API model A whose body field
descriptors are canonical hint-free strings (and whose methods are uppercase
canonical verbs with unique method+path keys and unique body field names, the
data-model invariants) yields the same set of `(method, path)` keys, the same
auth flag under each key, preserved body field names (each original field name
maps to exactly one round-tripped descriptor), and tags round-tripping
identically for string/integer/boolean/array/object while uuid and datetime
collapse to string. -/
theorem c1_openapi_roundtrip (A : API)
    (hverbs : ∀ e ∈ A.endpoints, e.method ∈ httpVerbs)
    (hkeys : (A.endpoints.map fun e => (e.method, e.path)).Nodup)
    (hbodies : ∀ e ∈ A.endpoints, ∀ b, reqBody e = some b →
      (b.map Prod.fst).Nodup ∧ ∀ fd ∈ b, isCanonicalDesc fd.2 = true) :
    (∀ M P,
      (epFind (OpenAPIImporter.importDoc (exportOpenAPI A)).endpoints M P).isSome
        = (epFind A.endpoints M P).isSome)
    ∧ (∀ M P,
      (epFind (OpenAPIImporter.importDoc (exportOpenAPI A)).endpoints M P).map
          Endpoint.auth
        = (epFind A.endpoints M P).map Endpoint.auth)
    ∧ (∀ M P e, epFind A.endpoints M P = some e → ∀ b, reqBody e = some b →
      ∃ e', epFind (OpenAPIImporter.importDoc (exportOpenAPI A)).endpoints M P
          = some e'
        ∧ ∃ b', reqBody e' = some b'
        ∧ ∀ n, lookupGo b' n = (lookupGo b n).map roundDesc)
    ∧ roundTag "string" = "string" ∧ roundTag "integer" = "integer"
    ∧ roundTag "boolean" = "boolean" ∧ roundTag "array" = "array"
    ∧ roundTag "object" = "object" ∧ roundTag "uuid" = "string"
    ∧ roundTag "datetime" = "string" := by
  refine ⟨?_, ?_, ?_, by decide, by decide, by decide, by decide, by decide,
    by decide, by decide⟩
  · intro M P
    by_cases hM : M ∈ httpVerbs
    · rw [roundtrip_epFind A hverbs hkeys M P hM]
      cases epFind A.endpoints M P <;> rfl
    · rw [epFind_none_of_no_verb _ M P hverbs hM,
        epFind_none_of_no_verb _ M P (import_method_mem A hverbs) hM]
  · intro M P
    by_cases hM : M ∈ httpVerbs
    · rw [roundtrip_epFind A hverbs hkeys M P hM]
      cases hfd : epFind A.endpoints M P with
      | none => rfl
      | some e =>
          simp [convertOperation_auth_of_export]
    · rw [epFind_none_of_no_verb _ M P hverbs hM,
        epFind_none_of_no_verb _ M P (import_method_mem A hverbs) hM]
  · intro M P e hfde b hb
    have hfde' : A.endpoints.find? (fun x => x.method == M && x.path == P)
        = some e := hfde
    have heA : e ∈ A.endpoints := List.mem_of_find?_eq_some hfde'
    have hpe := List.find?_some hfde'
    simp only [Bool.and_eq_true, beq_iff_eq] at hpe
    have heM : e.method = M := hpe.1
    have hM : M ∈ httpVerbs := heM ▸ hverbs e heA
    have hmaster := roundtrip_epFind A hverbs hkeys M P hM
    cases hreq : e.request with
    | none => rw [reqBody, hreq] at hb; cases hb
    | some r =>
        have hrb : r.body = some b := by rw [reqBody, hreq] at hb; exact hb
        obtain ⟨hnd, hcan⟩ := hbodies e heA b hb
        obtain ⟨b', hb', hlook⟩ :=
          convertOperation_body_of_export P M e r b hreq hrb hnd hcan
        refine ⟨OpenAPIImporter.convertOperation P M (mkExportedOp e), ?_, b', hb', hlook⟩
        rw [hmaster, hfde]
        rfl

/-- The request body of the C1 witness API. -/
def exRTBody : List (String × GoVal) :=
  [("id", GoVal.vstr "uuid, required"), ("name", GoVal.vstr "string, optional")]

/-- The only endpoint of the C1 witness API. -/
def exRTEndpoint : Endpoint :=
  { path := "/users", method := "POST", description := "create", auth := true,
    request := some { params := [], query := [], body := some exRTBody },
    response := none, errors := [] }

/-- The C1 witness API: one authenticated POST /users with a two-field body. -/
def exRTAPI : API :=
  { baseURL := "/api/v1", authType := "bearer", endpoints := [exRTEndpoint] }

/-- Witness for C1: the round trip of the witness API keeps the POST /users
key and its auth flag, keeps the body field names id and name, and collapses
uuid to string while keeping the string tag and the requiredness. -/
theorem c1_witness :
    (epFind (OpenAPIImporter.importDoc (exportOpenAPI exRTAPI)).endpoints
        "POST" "/users").isSome = true
    ∧ (epFind (OpenAPIImporter.importDoc (exportOpenAPI exRTAPI)).endpoints
        "POST" "/users").map Endpoint.auth = some true
    ∧ ∃ e', epFind (OpenAPIImporter.importDoc (exportOpenAPI exRTAPI)).endpoints
        "POST" "/users" = some e'
      ∧ ∃ b', reqBody e' = some b'
      ∧ lookupGo b' "id" = some (GoVal.vstr "string, required")
      ∧ lookupGo b' "name" = some (GoVal.vstr "string, optional") := by
  have hverbs : ∀ e ∈ exRTAPI.endpoints, e.method ∈ httpVerbs := by
    intro e he
    simp only [exRTAPI, List.mem_singleton] at he
    subst he
    decide
  have hkeys : (exRTAPI.endpoints.map fun e => (e.method, e.path)).Nodup := by
    simp [exRTAPI]
  have hbodies : ∀ e ∈ exRTAPI.endpoints, ∀ b, reqBody e = some b →
      (b.map Prod.fst).Nodup ∧ ∀ fd ∈ b, isCanonicalDesc fd.2 = true := by
    intro e he b hb
    simp only [exRTAPI, List.mem_singleton] at he
    subst he
    have hred : reqBody exRTEndpoint = some exRTBody := rfl
    rw [hred] at hb
    injection hb with hb
    subst hb
    exact ⟨by decide, by decide⟩
  have h := c1_openapi_roundtrip exRTAPI hverbs hkeys hbodies
  have hfde : epFind exRTAPI.endpoints "POST" "/users" = some exRTEndpoint := by
    simp [epFind, exRTAPI, exRTEndpoint, List.find?_cons]
  refine ⟨?_, ?_, ?_⟩
  · rw [h.1 "POST" "/users", hfde]
    rfl
  · rw [h.2.1 "POST" "/users", hfde]
    have : exRTEndpoint.auth = true := rfl
    simp [this]
  · obtain ⟨e', he', b', hb', hlook⟩ :=
      h.2.2.1 "POST" "/users" exRTEndpoint hfde exRTBody rfl
    refine ⟨e', he', b', hb', ?_, ?_⟩
    · rw [hlook "id"]
      rfl
    · rw [hlook "name"]
      rfl

end Architect
